import Mathlib

/-
Verification development for the Ameryd event gallery.

The Python sources are shallowly embedded as executable Lean definitions:

* Sync    models src/ameryd_app/sync.py (the Reconciler).
* Utils   models src/utils.py (thumbnail generators and extension sets).
* App     models src/app.py (media listing, pagination, access control).

The filesystem under the data root is modelled as an association list of
event folders; each folder carries the listing of its Media and Thumbnail
subdirectories.  Fallible operations of the environment (thumbnail
generation, file deletion, directory creation) are modelled by boolean
oracles in an Env record; an uncaught exception is modelled by Option.none.
String case folding is modelled for ASCII, matching the ASCII file names
and extensions that appear in the code.
-/

set_option autoImplicit false

/-- ASCII lowercasing of a string, modelling the Python str.lower calls that
the code applies to file extensions and folder names. -/
def strLower (s : String) : String := ⟨s.data.map Char.toLower⟩

/-- Key generation for discovered folders in sync.py, line 72:
item.lower().replace(" ", "-"). -/
def slugify0 (s : String) : String :=
  ⟨s.data.map (fun c => if c.toLower = ' ' then '-' else c.toLower)⟩

/-- Helper for splitext: on the reversed character list of a file name,
split off the (reversed) extension at the first dot found.  Returns
(reversed extension including the dot, reversed remaining base). -/
def revSplitAtDot : List Char → Option (List Char × List Char)
  | [] => none
  | c :: cs =>
    if c = '.' then some ([c], cs)
    else
      match revSplitAtDot cs with
      | none => none
      | some (re, rb) => some (c :: re, rb)

/-- Model of os.path.splitext restricted to plain file names (no path
separators): split at the last dot, except that a name whose every
character before the last dot is itself a dot has no extension. -/
def splitext (s : String) : String × String :=
  match revSplitAtDot s.data.reverse with
  | none => (s, "")
  | some (re, rb) =>
    if rb.all (fun c => c = '.') then (s, "")
    else (⟨rb.reverse⟩, ⟨re.reverse⟩)

namespace Sync

/-- IMAGE_EXTS of sync.py, line 10. -/
def IMAGE_EXTS : List String := [".jpg", ".jpeg", ".png", ".gif", ".bmp", ".webp"]

/-- VIDEO_EXTS of sync.py, line 11.  Note the absence of .3gp. -/
def VIDEO_EXTS : List String := [".mp4", ".mov", ".avi", ".webm", ".mkv"]

end Sync

namespace Utils

/-- IMAGE_EXTS of utils.py, line 6. -/
def IMAGE_EXTS : List String := [".jpg", ".jpeg", ".png", ".gif", ".bmp", ".webp"]

/-- VIDEO_EXTS of utils.py, line 7.  Note the presence of .3gp. -/
def VIDEO_EXTS : List String := [".mp4", ".mov", ".avi", ".webm", ".mkv", ".3gp"]

end Utils

/-- An event record of the manifest (events.json).  A missing password key
is modelled by the empty string, matching the falsiness test ev.get("password")
used throughout app.py. -/
structure Event where
  name : String
  description : String
  date : String
  folder : String
  hidden : Bool
  password : String
deriving Repr, DecidableEq

/-- The manifest: an insertion-ordered mapping of event key to record,
modelling the Python dict loaded from events.json. -/
abbrev Manifest := List (String × Event)

/-- First-match lookup in an association list, modelling Python dict access
(keys of a real dict are unique, so first match is exact). -/
def lookupStr {β : Type} : List (String × β) → String → Option β
  | [], _ => none
  | (k, v) :: rest, key => if k = key then some v else lookupStr rest key

/-- Replace the value at every entry with the given key, keeping positions,
modelling assignment to an existing dict key. -/
def setAll {β : Type} : List (String × β) → String → β → List (String × β)
  | [], _, _ => []
  | (k, v) :: rest, key, nv =>
    (if k = key then (k, nv) else (k, v)) :: setAll rest key nv

/-- Python dict assignment d[k] = v: overwrite in place when the key exists,
append at the end otherwise. -/
def dictInsert (m : Manifest) (k : String) (v : Event) : Manifest :=
  if (lookupStr m k).isSome then setAll m k v else m ++ [(k, v)]

/-- State of one event folder under the data root. -/
structure FolderState where
  mediaExists : Bool
  mediaFiles : List String
  thumbDirExists : Bool
  thumbFiles : List String
deriving Repr, DecidableEq

/-- The data root: the association list of its subdirectories (in listing
order) with their states.  Plain files in the data root are not modelled;
the code skips every non-directory entry. -/
structure FS where
  dirs : List (String × FolderState)
deriving Repr, DecidableEq

def fsGet (fs : FS) (f : String) : Option FolderState := lookupStr fs.dirs f

def fsSet (fs : FS) (f : String) (st : FolderState) : FS := ⟨setAll fs.dirs f st⟩

/-- Oracles deciding the outcome of the fallible external operations of
sync.py: thumbnail generation (generate_thumbnail, caught), thumbnail
removal (os.remove, caught) and thumbnail directory creation (os.makedirs,
not caught). -/
structure Env where
  genOk : String → String → Bool
  delOk : String → String → Bool
  mkdirOk : String → Bool

/-- Trace record of one thumbnail generation attempt of the sync pass. -/
structure GenRec where
  folder : String
  media : String
  thumb : String
  ok : Bool
deriving Repr, DecidableEq

/-- Trace record of one orphan thumbnail deletion attempt of the sync pass. -/
structure DelRec where
  folder : String
  thumb : String
  ok : Bool
deriving Repr, DecidableEq

namespace Sync

/-- Default record created for a discovered folder, sync.py lines 73 to 80. -/
def defaultEvent (item : String) : Event :=
  { name := item
    description := "Auto-discovered event"
    date := "2025-01-01"
    folder := item
    hidden := true
    password := "" }

/-- Step 1 of sync_events (lines 63 to 82): walk the data directory listing,
creating a default record for every directory that is not the reserved
Thumbnail directory and whose name is not already some folder of the
manifest; the known-folder set grows as records are created. -/
def discoverAux : List String → Manifest → List String → Manifest
  | [], events, _ => events
  | item :: rest, events, existing =>
    if item ≠ "Thumbnail" ∧ item ∉ existing then
      discoverAux rest (dictInsert events (slugify0 item) (defaultEvent item))
        (item :: existing)
    else
      discoverAux rest events existing

def discover (dirNames : List String) (events : Manifest) : Manifest :=
  discoverAux dirNames events (events.map (fun kv => kv.2.folder))

/-- Step 2 of sync_events (lines 85 to 93): drop every record whose folder
no longer exists under the data root. -/
def prune (dirNames : List String) (events : Manifest) : Manifest :=
  events.filter (fun kv => decide (kv.2.folder ∈ dirNames))

/-- The set of media base names of lines 113 to 119: the extension-stripped
names of the files with a recognized image or video extension. -/
def validBases (mediaFiles : List String) : List String :=
  mediaFiles.filterMap (fun fname =>
    let be := splitext fname
    if strLower be.2 ∈ IMAGE_EXTS ∨ strLower be.2 ∈ VIDEO_EXTS then some be.1
    else none)

/-- Step 3a of sync_events (lines 122 to 131): for every image file whose
stem-named thumbnail is missing, attempt generation; on success the new
thumbnail appears in the directory listing.  Returns the updated thumbnail
listing and the trace of attempts. -/
def genPass (env : Env) (f : String) :
    List String → List String → List String × List GenRec
  | [], th => (th, [])
  | fname :: rest, th =>
    let be := splitext fname
    if strLower be.2 ∈ IMAGE_EXTS then
      let tf := be.1 ++ ".webp"
      if tf ∈ th then genPass env f rest th
      else if env.genOk f fname then
        let r := genPass env f rest (th ++ [tf])
        (r.1, ⟨f, fname, tf, true⟩ :: r.2)
      else
        let r := genPass env f rest th
        (r.1, ⟨f, fname, tf, false⟩ :: r.2)
    else genPass env f rest th

/-- Step 3b of sync_events (lines 134 to 146): every thumbnail file whose
lowercased extension is .webp and whose base is not a valid media base is
removed; a failed removal (caught OSError) leaves the file in place. -/
def cleanupPass (env : Env) (f : String) (bases : List String) :
    List String → List String × List DelRec
  | [] => ([], [])
  | tf :: rest =>
    let r := cleanupPass env f bases rest
    let be := splitext tf
    if strLower be.2 = ".webp" ∧ be.1 ∉ bases then
      if env.delOk f tf then (r.1, ⟨f, tf, true⟩ :: r.2)
      else (tf :: r.1, ⟨f, tf, false⟩ :: r.2)
    else (tf :: r.1, r.2)

/-- The per-folder part of step 3, once the thumbnail directory exists. -/
def procFolderState (env : Env) (f : String) (st : FolderState) :
    FolderState × List GenRec × List DelRec :=
  let bases := validBases st.mediaFiles
  let g := genPass env f st.mediaFiles st.thumbFiles
  let c := cleanupPass env f bases g.1
  ({ st with thumbDirExists := true, thumbFiles := c.1 }, g.2, c.2)

/-- Step 3 of sync_events for one surviving event (lines 99 to 146): skip
the event when its Media directory is missing; otherwise create the
Thumbnail directory if needed (an os.makedirs failure is an uncaught
exception, modelled by none) and run generation and orphan cleanup. -/
def processEvent (env : Env) (ev : Event) (fs : FS) :
    Option (FS × List GenRec × List DelRec) :=
  match fsGet fs ev.folder with
  | none => some (fs, [], [])
  | some st =>
    if st.mediaExists = false then some (fs, [], [])
    else if st.thumbDirExists = false ∧ env.mkdirOk ev.folder = false then none
    else
      let r := procFolderState env ev.folder st
      some (fsSet fs ev.folder r.1, r.2.1, r.2.2)

/-- Step 3 of sync_events over the surviving manifest, accumulating the
generation and deletion traces; an uncaught exception aborts the pass. -/
def processEvents (env : Env) :
    List (String × Event) → FS → List GenRec → List DelRec →
    Option (FS × List GenRec × List DelRec)
  | [], fs, gs, ds => some (fs, gs, ds)
  | kv :: rest, fs, gs, ds =>
    match processEvent env kv.2 fs with
    | none => none
    | some r => processEvents env rest r.1 (gs ++ r.2.1) (ds ++ r.2.2)

/-- Outcome of a completed sync_events pass: the manifest as saved after
discovery and pruning, the final filesystem, and the traces of all
generation and deletion attempts.  sync_events prints Sync complete
exactly when it returns some result. -/
structure SyncResult where
  manifest : Manifest
  fs : FS
  gens : List GenRec
  dels : List DelRec
deriving Repr, DecidableEq

/-- sync_events of sync.py, lines 50 to 148, assuming the data root itself
is a readable directory. -/
def sync_events (env : Env) (fs : FS) (events : Manifest) : Option SyncResult :=
  let dirNames := fs.dirs.map Prod.fst
  let e1 := discover dirNames events
  let e2 := prune dirNames e1
  match processEvents env e2 fs [] [] with
  | none => none
  | some r => some ⟨e2, r.1, r.2.1, r.2.2⟩

end Sync

namespace Utils

/-- The PIL operations applied by a still-image thumbnail pipeline, in
order.  Each constructor stands for one call of the Python code:
ImageOps.exif_transpose, Image.convert("RGB"), Image.thumbnail(THUMB_SIZE)
and Image.save(..., "WEBP", quality). -/
inductive ImgOp where
  | exifTranspose
  | convertRGB
  | thumbnailResize
  | saveWebp (quality : Nat)
deriving Repr, DecidableEq

/-- The operation sequence of generate_thumbnail in utils.py, lines 9 to 20,
on an image whose PIL mode is the given string: EXIF transposition first,
then RGB flattening for RGBA or palette images, then resize and encode. -/
def generate_thumbnail_ops (mode : String) (quality : Nat) : List ImgOp :=
  [ImgOp.exifTranspose] ++
    (if mode = "RGBA" ∨ mode = "P" then [ImgOp.convertRGB] else []) ++
    [ImgOp.thumbnailResize, ImgOp.saveWebp quality]

/-- An opened video stream: whether cv2.VideoCapture opened it, the frames
per second reported by the stream (nonpositive when unavailable), and the
decode result when reading after seeking to a given frame index. -/
structure Video where
  opens : Bool
  fps : Int
  frameAt : Int → Option Nat

/-- Outcome of generate_video_thumbnail: the returned truthiness, the frame
written as a thumbnail (none when nothing is written), and the frame
positions at which reads were attempted, in order. -/
structure VideoThumbOutcome where
  ok : Bool
  written : Option Nat
  readPositions : List Int
deriving Repr, DecidableEq

/-- generate_video_thumbnail of utils.py, lines 22 to 47: seek to frame
int(fps) when fps is positive (about the one second mark), read one frame;
on failure seek to frame 0 and read once more; write the frame as a
thumbnail when a read succeeded, otherwise write nothing.  Every failure
path returns a falsy value and raises nothing. -/
def generate_video_thumbnail (v : Video) : VideoThumbOutcome :=
  if v.opens = false then ⟨false, none, []⟩
  else
    let pos : Int := if v.fps > 0 then v.fps else 0
    match v.frameAt pos with
    | some fr => ⟨true, some fr, [pos]⟩
    | none =>
      match v.frameAt 0 with
      | some fr => ⟨true, some fr, [pos, 0]⟩
      | none => ⟨false, none, [pos, 0]⟩

end Utils

namespace Sync

/-- The operation sequence of the local generate_thumbnail in sync.py,
lines 32 to 48, on an image of the given PIL mode: no EXIF transposition,
only RGB flattening, resize and encode at fixed quality 80. -/
def generate_thumbnail_ops (mode : String) : List Utils.ImgOp :=
  (if mode = "RGBA" ∨ mode = "P" then [Utils.ImgOp.convertRGB] else []) ++
    [Utils.ImgOp.thumbnailResize, Utils.ImgOp.saveWebp 80]

end Sync

/-- A pipeline applies the embedded EXIF orientation before any other
transform exactly when its first operation is the transposition. -/
def appliesExifFirst (ops : List Utils.ImgOp) : Prop :=
  ops.head? = some Utils.ImgOp.exifTranspose

namespace App

/-- One entry of the media list built by get_event_media_list in app.py,
lines 72 to 99. -/
structure MediaEntry where
  filename : String
  thumb_filename : String
  thumb_route : String
deriving Repr, DecidableEq

/-- Insertion sort by the code point order on strings, modelling the
Python sorted() call on the media directory listing. -/
def insertSorted (x : String) : List String → List String
  | [] => [x]
  | y :: ys => if x ≤ y then x :: y :: ys else y :: insertSorted x ys

def sortStrings (l : List String) : List String := l.foldr insertSorted []

/-- get_event_media_list of app.py, lines 72 to 99: sort the media
directory listing, keep the files with a recognized extension, and pair
each with its event-local thumbnail (named filename plus .webp) when that
file exists, or with the global fallback keyed by media class. -/
def get_event_media_list (fs : FS) (ev : Event) : List MediaEntry :=
  match fsGet fs ev.folder with
  | none => []
  | some st =>
    if st.mediaExists = false then []
    else
      (sortStrings st.mediaFiles).filterMap (fun fname =>
        let ext := strLower (splitext fname).2
        if ext ∈ Utils.IMAGE_EXTS ∨ ext ∈ Utils.VIDEO_EXTS then
          let tf := fname ++ ".webp"
          if st.thumbDirExists = true ∧ tf ∈ st.thumbFiles then
            some ⟨fname, tf, "thumb_file"⟩
          else
            some ⟨fname, if ext ∈ Utils.IMAGE_EXTS then "image.webp" else "video.webp",
              "global_thumb"⟩
        else none)

/-- Normalization of one Python slice bound for a list of the given
length: negative bounds count from the end and clamp at zero, positive
bounds clamp at the length. -/
def pyIndex (n : Nat) (i : Int) : Nat :=
  if i < 0 then (i + n).toNat else min i.toNat n

/-- Python list slicing l[i:j] with step one. -/
def pySlice {α : Type} (l : List α) (i j : Int) : List α :=
  let a := pyIndex l.length i
  let b := pyIndex l.length j
  (l.drop a).take (b - a)

/-- The pagination payload returned by event_api. -/
structure PageResult (α : Type) where
  media : List α
  has_more : Bool
  next_page : Option Int
deriving Repr, DecidableEq

/-- The pagination of event_api in app.py, lines 199 to 208: the slice
from (page - 1) * 20 to page * 20 under Python slice semantics, a flag
telling whether the end bound is below the list length, and the next page
number when there is more. -/
def paginate {α : Type} (allMedia : List α) (page : Int) : PageResult α :=
  let start := (page - 1) * 20
  let stop := start + 20
  { media := pySlice allMedia start stop
    has_more := decide (stop < (allMedia.length : Int))
    next_page := if stop < (allMedia.length : Int) then some (page + 1) else none }

/-- Responses of the JSON listing endpoint event_api, app.py lines 186
to 208. -/
inductive ApiResp where
  | notFound
  | unauthorized
  | ok (r : PageResult MediaEntry)
deriving Repr, DecidableEq

/-- event_api of app.py, lines 186 to 208: look up the event, reject a
locked event when the supplied key differs from the password and the
caller is not an admin, otherwise return one page of the media list. -/
def event_api (events : Manifest) (fs : FS) (path : String) (key : String)
    (isAdmin : Bool) (page : Int) : ApiResp :=
  match lookupStr events path with
  | none => ApiResp.notFound
  | some ev =>
    if ev.password ≠ "" ∧ key ≠ ev.password ∧ isAdmin = false then
      ApiResp.unauthorized
    else ApiResp.ok (paginate (get_event_media_list fs ev) page)

/-- Responses of the media file route, app.py lines 469 to 483. -/
inductive MediaResp where
  | notFound
  | forbidden
  | send (folder : String) (filename : String)
deriving Repr, DecidableEq

/-- media_file of app.py, lines 469 to 483: look up the event, apply the
same lock check as event_api (403 on failure), then serve the file from
the Media directory when that directory exists. -/
def media_file (events : Manifest) (fs : FS) (path : String) (filename : String)
    (key : String) (isAdmin : Bool) : MediaResp :=
  match lookupStr events path with
  | none => MediaResp.notFound
  | some ev =>
    if ev.password ≠ "" ∧ key ≠ ev.password ∧ isAdmin = false then
      MediaResp.forbidden
    else
      match fsGet fs ev.folder with
      | none => MediaResp.notFound
      | some st =>
        if st.mediaExists = true then MediaResp.send ev.folder filename
        else MediaResp.notFound

/-- Responses of the thumbnail file route, app.py lines 485 to 499. -/
inductive ThumbResp where
  | forbidden
  | sendLocal (folder : String) (filename : String)
  | sendGlobal (filename : String)
deriving Repr, DecidableEq

/-- thumb_file of app.py, lines 485 to 499: look up the event (a missing
event aborts with 404, modelled by none), apply the lock check (403 on
failure), then serve the event-local thumbnail when it exists and fall
back to the global thumbnail route otherwise. -/
def thumb_file (events : Manifest) (fs : FS) (path : String) (filename : String)
    (key : String) (isAdmin : Bool) : Option ThumbResp :=
  match lookupStr events path with
  | none => none
  | some ev =>
    if ev.password ≠ "" ∧ key ≠ ev.password ∧ isAdmin = false then
      some ThumbResp.forbidden
    else
      match fsGet fs ev.folder with
      | some st =>
        if st.thumbDirExists = true ∧ filename ∈ st.thumbFiles then
          some (ThumbResp.sendLocal ev.folder filename)
        else some (ThumbResp.sendGlobal filename)
      | none => some (ThumbResp.sendGlobal filename)

end App

/- Concrete fixtures used by witnesses and counterexamples. -/

/-- Environment in which every external operation succeeds. -/
def envAll : Env := ⟨fun _ _ => true, fun _ _ => true, fun _ => true⟩

/-- Environment in which directory creation always fails. -/
def envNoMkdir : Env := ⟨fun _ _ => true, fun _ _ => true, fun _ => false⟩

/-- A public event record stored under folder ev1. -/
def evW : Event :=
  { name := "E", description := "d", date := "01-01-2020", folder := "ev1",
    hidden := false, password := "" }

/-- A data root holding one event folder whose Media directory contains a
single video and whose Thumbnail directory is empty. -/
def fsVideoOnly : FS :=
  ⟨[("ev1", { mediaExists := true, mediaFiles := ["v.mp4"],
              thumbDirExists := true, thumbFiles := [] })]⟩

/-- The sync outcome on fsVideoOnly: nothing generated, nothing deleted. -/
def rVideoOnly : Sync.SyncResult := ⟨[("ev1", evW)], fsVideoOnly, [], []⟩

/-- A data root with two event folders whose names collide under the key
slug of the discovery step: both A B and a-b slug to a-b. -/
def fsSlug : FS :=
  ⟨[("A B", { mediaExists := false, mediaFiles := [], thumbDirExists := false, thumbFiles := [] }),
    ("a-b", { mediaExists := false, mediaFiles := [], thumbDirExists := false, thumbFiles := [] })]⟩

/-- Outcome of the first sync pass on fsSlug from an empty manifest. -/
def r1Slug : Sync.SyncResult := ⟨[("a-b", Sync.defaultEvent "a-b")], fsSlug, [], []⟩

/-- Outcome of the second sync pass: the colliding key now carries the
other folder. -/
def r2Slug : Sync.SyncResult := ⟨[("a-b", Sync.defaultEvent "A B")], fsSlug, [], []⟩

/-- A data root whose event folder holds the image a.jpg together with the
upload-path thumbnail a.jpg.webp (full file name plus .webp). -/
def fsUploadThumb : FS :=
  ⟨[("ev1", { mediaExists := true, mediaFiles := ["a.jpg"],
              thumbDirExists := true, thumbFiles := ["a.jpg.webp"] })]⟩

/-- The sync outcome on fsUploadThumb: the stem-named thumbnail a.webp is
generated and the upload-named thumbnail a.jpg.webp is deleted as an
orphan. -/
def rUploadThumb : Sync.SyncResult :=
  ⟨[("ev1", evW)],
   ⟨[("ev1", { mediaExists := true, mediaFiles := ["a.jpg"],
               thumbDirExists := true, thumbFiles := ["a.webp"] })]⟩,
   [⟨"ev1", "a.jpg", "a.webp", true⟩],
   [⟨"ev1", "a.jpg.webp", true⟩]⟩

/-- A data root whose event folder has a Media directory but no Thumbnail
directory, so the sync pass must create one. -/
def fsNeedsThumbDir : FS :=
  ⟨[("evf", { mediaExists := true, mediaFiles := [], thumbDirExists := false, thumbFiles := [] })]⟩

/-- A video stream at 30 frames per second whose every frame read fails. -/
def vW : Utils.Video := ⟨true, 30, fun _ => none⟩

/-- A one-element media list. -/
def mlW : List App.MediaEntry := [⟨"a.jpg", "image.webp", "global_thumb"⟩]

/-- A locked event record with password pw, stored under folder f. -/
def evLock : Event :=
  { name := "L", description := "d", date := "01-01-2020", folder := "f",
    hidden := false, password := "pw" }

/-- A manifest holding only the locked event under key e. -/
def eventsLock : Manifest := [("e", evLock)]

/-- A data root for the locked event with one image and its thumbnail. -/
def fsLock : FS :=
  ⟨[("f", { mediaExists := true, mediaFiles := ["a.jpg"],
            thumbDirExists := true, thumbFiles := ["a.jpg.webp"] })]⟩

/-- The state of one event folder after the per-folder part of step 3 ran
on it: the thumbnail directory exists; every image file has its stem-named
thumbnail unless its generation fails; every webp thumbnail has a valid
base unless its deletion fails. -/
def Sync.folderSynced (env : Env) (f : String) (st : FolderState) : Prop :=
  st.thumbDirExists = true ∧
  (∀ fname ∈ st.mediaFiles, strLower (splitext fname).2 ∈ Sync.IMAGE_EXTS →
    ((splitext fname).1 ++ ".webp") ∈ st.thumbFiles ∨ env.genOk f fname = false) ∧
  (∀ tf ∈ st.thumbFiles, strLower (splitext tf).2 = ".webp" →
    (splitext tf).1 ∈ Sync.validBases st.mediaFiles ∨ env.delOk f tf = false)

/-- A data root whose event folder holds the image a.jpg together with its
stem-named thumbnail a.webp, the name the sync pass itself uses. -/
def fsStemThumb : FS :=
  ⟨[("ev1", { mediaExists := true, mediaFiles := ["a.jpg"],
              thumbDirExists := true, thumbFiles := ["a.webp"] })]⟩

/-- The sync outcome on fsStemThumb: nothing generated, nothing deleted. -/
def rStemThumb : Sync.SyncResult := ⟨[("ev1", evW)], fsStemThumb, [], []⟩

/-- A data root whose event folder holds the video clip.3gp together with
the upload-path thumbnail clip.3gp.webp. -/
def fs3gp : FS :=
  ⟨[("ev1", { mediaExists := true, mediaFiles := ["clip.3gp"],
              thumbDirExists := true, thumbFiles := ["clip.3gp.webp"] })]⟩

/-- The sync outcome on fs3gp: the thumbnail of the .3gp file is deleted
as an orphan because the sync extension sets do not recognize .3gp. -/
def r3gp : Sync.SyncResult :=
  ⟨[("ev1", evW)],
   ⟨[("ev1", { mediaExists := true, mediaFiles := ["clip.3gp"],
               thumbDirExists := true, thumbFiles := [] })]⟩,
   [], [⟨"ev1", "clip.3gp.webp", true⟩]⟩

/- Theorems. -/

theorem pyIndex_zero (n : Nat) : App.pyIndex n 0 = 0 := by
  simp [App.pyIndex]

/-- C1.  The orphan invariant as claimed fails on the code: after a sync
pass on an event whose Media directory holds only the recognized video
v.mp4 and whose Thumbnail directory is empty, the video has no thumbnail
and no generation attempt was made at all (the missing-thumbnail loop of
sync_events covers image extensions only), refuting the claim that every
recognized media file has a thumbnail or a failed generation attempt. -/
theorem C1_counterexample :
    Sync.sync_events envAll fsVideoOnly [("ev1", evW)] = some rVideoOnly ∧
    fsGet rVideoOnly.fs "ev1" =
      some { mediaExists := true, mediaFiles := ["v.mp4"],
             thumbDirExists := true, thumbFiles := [] } ∧
    strLower (splitext "v.mp4").2 ∈ Sync.VIDEO_EXTS ∧
    rVideoOnly.gens = [] := by decide

/-- C2.  Idempotence as claimed fails on the code: with two folders A B
and a-b, both of which slug to the manifest key a-b, the first pass
records folder a-b under that key and the second pass overwrites the
record with folder A B, so two successive passes on an unchanged
filesystem produce different manifests. -/
theorem C2_counterexample :
    Sync.sync_events envAll fsSlug [] = some r1Slug ∧
    Sync.sync_events envAll r1Slug.fs r1Slug.manifest = some r2Slug ∧
    r2Slug.manifest ≠ r1Slug.manifest := by decide

/-- C3.  The claim fails for upload-path thumbnails: the image a.jpg has
the pre-existing thumbnail a.jpg.webp (the name the upload path gives it),
yet the sync pass deletes that file as an orphan, because the orphan check
strips the .webp extension and compares a.jpg against the stem set, which
contains only a. -/
theorem C3_counterexample :
    ("a.jpg" ∈ ["a.jpg"] ∧ strLower (splitext "a.jpg").2 ∈ Sync.IMAGE_EXTS ∧
      "a.jpg.webp" = "a.jpg" ++ ".webp" ∧
      fsGet fsUploadThumb "ev1" =
        some { mediaExists := true, mediaFiles := ["a.jpg"],
               thumbDirExists := true, thumbFiles := ["a.jpg.webp"] }) ∧
    Sync.sync_events envAll fsUploadThumb [("ev1", evW)] = some rUploadThumb ∧
    (∀ st, fsGet rUploadThumb.fs "ev1" = some st → "a.jpg.webp" ∉ st.thumbFiles) := by
  decide

/-- C7.  The claim fails on the code: os.makedirs in sync_events is not
wrapped in a try block, so when the Thumbnail directory of one event
cannot be created the exception propagates, the pass aborts and never
reports completion (modelled by the none result). -/
theorem C7_counterexample :
    Sync.sync_events envNoMkdir fsNeedsThumbDir [] = none := by decide

/-- C5.  The claim fails on the code: the generate_thumbnail defined in
sync.py, which is the generator the missing-thumbnail pass of sync_events
invokes, never calls ImageOps.exif_transpose, so on an RGB image its
operation sequence starts with the resize rather than the orientation
transform. -/
theorem C5_counterexample :
    ¬ appliesExifFirst (Sync.generate_thumbnail_ops "RGB") := by
  unfold appliesExifFirst
  decide

/-- C5 amended.  The upload-path generator (generate_thumbnail of
utils.py, reached through generate_thumb_for_any) applies the EXIF
orientation transform before any other operation for every image mode and
quality, while the generator used by the sync pass never applies it. -/
theorem C5_theorem (mode : String) (q : Nat) :
    appliesExifFirst (Utils.generate_thumbnail_ops mode q) ∧
    Utils.ImgOp.exifTranspose ∉ Sync.generate_thumbnail_ops mode := by
  constructor
  · simp [appliesExifFirst, Utils.generate_thumbnail_ops]
  · by_cases h : mode = "RGBA" ∨ mode = "P" <;>
      simp [Sync.generate_thumbnail_ops, h]

/-- C8.  generate_video_thumbnail on an opened stream reads first at frame
int(fps) when fps is positive (about the one second mark) and at frame 0
otherwise; when the first read fails it retries exactly once at frame 0;
and when both reads fail it returns a falsy value and writes no thumbnail,
raising nothing (the model is a total function). -/
theorem C8_theorem (v : Utils.Video) (h : v.opens = true) :
    (v.fps > 0 →
      (Utils.generate_video_thumbnail v).readPositions.head? = some v.fps) ∧
    (v.fps ≤ 0 →
      (Utils.generate_video_thumbnail v).readPositions.head? = some 0) ∧
    (v.frameAt (if v.fps > 0 then v.fps else 0) = none →
      (Utils.generate_video_thumbnail v).readPositions =
        [(if v.fps > 0 then v.fps else 0), 0]) ∧
    (v.frameAt (if v.fps > 0 then v.fps else 0) = none → v.frameAt 0 = none →
      (Utils.generate_video_thumbnail v).ok = false ∧
      (Utils.generate_video_thumbnail v).written = none) := by
  unfold Utils.generate_video_thumbnail
  rw [h]
  simp only [Bool.true_eq_false, if_false]
  by_cases hfps : v.fps > 0 <;>
    cases hf : v.frameAt (if v.fps > 0 then v.fps else 0) <;>
    cases h0 : v.frameAt 0 <;>
    simp_all

/-- Witness for C8: a 30 fps stream on which every read fails makes both
attempts, at frame 30 and then at frame 0, and reports failure with no
thumbnail written. -/
theorem C8_witness :
    vW.opens = true ∧
    (Utils.generate_video_thumbnail vW).readPositions = [30, 0] ∧
    (Utils.generate_video_thumbnail vW).ok = false ∧
    (Utils.generate_video_thumbnail vW).written = none := by
  refine ⟨rfl, ?_, ?_⟩
  · have := (C8_theorem vW rfl).2.2.1 (by decide)
    simpa using this
  · exact (C8_theorem vW rfl).2.2.2 (by decide) (by decide)

/-- C9.  For page number 0 and a non-empty media list the pagination of
event_api yields an empty chunk, has_more true and next page 1: the slice
bounds -20 and 0 fall under Python slice semantics instead of being
rejected. -/
theorem C9_theorem (l : List App.MediaEntry) (h : l ≠ []) :
    (App.paginate l 0).media = [] ∧
    (App.paginate l 0).has_more = true ∧
    (App.paginate l 0).next_page = some 1 := by
  have hn : 0 < l.length := List.length_pos.mpr h
  have hstop : ((0 : Int) - 1) * 20 + 20 = 0 := by norm_num
  have hlt : ((0 : Int) - 1) * 20 + 20 < (l.length : Int) := by
    rw [hstop]; exact_mod_cast hn
  refine ⟨?_, ?_, ?_⟩
  · show App.pySlice l (((0 : Int) - 1) * 20) (((0 : Int) - 1) * 20 + 20) = []
    rw [hstop]
    unfold App.pySlice
    rw [pyIndex_zero]
    simp
  · show decide ((((0 : Int) - 1) * 20 + 20) < (l.length : Int)) = true
    exact decide_eq_true hlt
  · show (if (((0 : Int) - 1) * 20 + 20) < (l.length : Int) then some ((0 : Int) + 1) else none) = some 1
    rw [if_pos hlt]
    norm_num

/-- Witness for C9 on a one-element media list. -/
theorem C9_witness :
    mlW ≠ [] ∧ ((App.paginate mlW 0).media = [] ∧
      (App.paginate mlW 0).has_more = true ∧
      (App.paginate mlW 0).next_page = some 1) :=
  ⟨by decide, C9_theorem mlW (by decide)⟩

theorem pyIndex_natCast (n a : Nat) : App.pyIndex n (a : Int) = min a n := by
  unfold App.pyIndex
  rw [if_neg (by omega)]
  simp

theorem pySlice_natCast {α : Type} (l : List α) (a b : Nat) :
    App.pySlice l (a : Int) (b : Int) =
      (l.drop (min a l.length)).take (min b l.length - min a l.length) := by
  unfold App.pySlice
  rw [pyIndex_natCast, pyIndex_natCast]

theorem paginate_media_nat (l : List App.MediaEntry) (p : Nat) :
    (App.paginate l ((p : Int) + 1)).media = (l.drop (20 * p)).take 20 := by
  show App.pySlice l (((p : Int) + 1 - 1) * 20) (((p : Int) + 1 - 1) * 20 + 20) =
    (l.drop (20 * p)).take 20
  have e1 : ((p : Int) + 1 - 1) * 20 = ((20 * p : Nat) : Int) := by push_cast; ring
  rw [e1]
  have e2 : ((20 * p : Nat) : Int) + 20 = ((20 * p + 20 : Nat) : Int) := by push_cast; ring
  rw [e2, pySlice_natCast]
  rcases le_or_lt l.length (20 * p) with h | h
  · rw [min_eq_right h, List.drop_length, List.drop_eq_nil_of_le h]
    simp
  · rw [min_eq_left (le_of_lt h)]
    rcases le_or_lt (20 * p + 20) l.length with h2 | h2
    · rw [min_eq_left h2]
      congr 1
      omega
    · rw [min_eq_right (le_of_lt h2)]
      have hlen : (l.drop (20 * p)).length = l.length - 20 * p := List.length_drop _ _
      rw [List.take_of_length_le (by omega), List.take_of_length_le (by omega)]

theorem join_chunks {α : Type} :
    ∀ (k : Nat) (l : List α), l.length ≤ 20 * k →
      ((List.range k).map (fun i => (l.drop (20 * i)).take 20)).flatten = l := by
  intro k
  induction k with
  | zero =>
    intro l hl
    have : l = [] := List.eq_nil_of_length_eq_zero (by omega)
    simp [this]
  | succ k ih =>
    intro l hl
    rw [List.range_succ_eq_map]
    simp only [List.map_cons, List.map_map, List.flatten_cons]
    have hmap : (List.range k).map ((fun i => (l.drop (20 * i)).take 20) ∘ Nat.succ) =
        (List.range k).map (fun i => ((l.drop 20).drop (20 * i)).take 20) := by
      apply List.map_congr_left
      intro a _
      simp only [Function.comp]
      rw [List.drop_drop]
      congr 2
      omega
    rw [hmap, ih (l.drop 20) (by rw [List.length_drop]; omega)]
    simp

/-- C4.  The pagination law of event_api holds for any media list: the
chunks of pages 1 through ceiling of length over 20 concatenate back to
the whole list (hence no duplicates or gaps), the final page reports
has_more false, and the page one past the end yields an empty chunk with
has_more false and no next page rather than an error. -/
theorem C4_theorem (l : List App.MediaEntry) :
    (((List.range ((l.length + 19) / 20)).map
        (fun (i : Nat) => (App.paginate l ((i : Int) + 1)).media)).flatten = l) ∧
    (App.paginate l (((l.length + 19) / 20 : Nat) : Int)).has_more = false ∧
    (App.paginate l ((((l.length + 19) / 20 : Nat) : Int) + 1)).media = [] ∧
    (App.paginate l ((((l.length + 19) / 20 : Nat) : Int) + 1)).has_more = false ∧
    (App.paginate l ((((l.length + 19) / 20 : Nat) : Int) + 1)).next_page = none := by
  set np := (l.length + 19) / 20 with hnp
  have hle : l.length ≤ 20 * np := by omega
  refine ⟨?_, ?_, ?_, ?_, ?_⟩
  · have hm : (List.range np).map (fun (i : Nat) => (App.paginate l ((i : Int) + 1)).media) =
        (List.range np).map (fun (i : Nat) => (l.drop (20 * i)).take 20) := by
      apply List.map_congr_left
      intro a _
      exact paginate_media_nat l a
    rw [hm]
    exact join_chunks np l hle
  · show decide ((((np : Int)) - 1) * 20 + 20 < (l.length : Int)) = false
    apply decide_eq_false
    intro hcon
    have he : ((np : Int) - 1) * 20 + 20 = ((20 * np : Nat) : Int) := by push_cast; ring
    rw [he] at hcon
    omega
  · rw [paginate_media_nat l np, List.drop_eq_nil_of_le hle]
    simp
  · show decide ((((np : Int) + 1) - 1) * 20 + 20 < (l.length : Int)) = false
    apply decide_eq_false
    intro hcon
    have he : ((np : Int) + 1 - 1) * 20 + 20 = ((20 * np + 20 : Nat) : Int) := by push_cast; ring
    rw [he] at hcon
    omega
  · show (if (((np : Int) + 1) - 1) * 20 + 20 < (l.length : Int)
        then some ((np : Int) + 1 + 1) else none) = none
    rw [if_neg]
    intro hcon
    have he : ((np : Int) + 1 - 1) * 20 + 20 = ((20 * np + 20 : Nat) : Int) := by push_cast; ring
    rw [he] at hcon
    omega

/-- C6.  For an event with a non-empty password: a request whose key
differs from the password by a non-admin caller is rejected by the listing
API (401), the media file route (403) and the thumbnail route (403); with
the matching key all three proceed: the listing returns the page, the
media route serves the file whenever the Media directory exists, and the
thumbnail route answers with either the local or the global thumbnail. -/
theorem C6_theorem (events : Manifest) (fs : FS) (path key filename : String)
    (isAdmin : Bool) (page : Int) (ev : Event)
    (hev : lookupStr events path = some ev) (hpw : ev.password ≠ "") :
    (key ≠ ev.password → isAdmin = false →
      App.event_api events fs path key isAdmin page = App.ApiResp.unauthorized ∧
      App.media_file events fs path filename key isAdmin = App.MediaResp.forbidden ∧
      App.thumb_file events fs path filename key isAdmin = some App.ThumbResp.forbidden) ∧
    (key = ev.password →
      App.event_api events fs path key isAdmin page =
        App.ApiResp.ok (App.paginate (App.get_event_media_list fs ev) page) ∧
      App.media_file events fs path filename key isAdmin ≠ App.MediaResp.forbidden ∧
      (∀ st, fsGet fs ev.folder = some st → st.mediaExists = true →
        App.media_file events fs path filename key isAdmin =
          App.MediaResp.send ev.folder filename) ∧
      App.thumb_file events fs path filename key isAdmin ≠ some App.ThumbResp.forbidden ∧
      (App.thumb_file events fs path filename key isAdmin).isSome = true) := by
  constructor
  · intro hk ha
    unfold App.event_api App.media_file App.thumb_file
    rw [hev]
    dsimp only
    rw [if_pos ⟨hpw, hk, ha⟩, if_pos ⟨hpw, hk, ha⟩, if_pos ⟨hpw, hk, ha⟩]
    exact ⟨rfl, rfl, rfl⟩
  · intro hk
    have hcond : ¬ (ev.password ≠ "" ∧ key ≠ ev.password ∧ isAdmin = false) := by
      intro hcontra
      exact hcontra.2.1 hk
    unfold App.event_api App.media_file App.thumb_file
    rw [hev]
    dsimp only
    rw [if_neg hcond, if_neg hcond, if_neg hcond]
    refine ⟨rfl, ?_, ?_, ?_, ?_⟩
    · cases hst : fsGet fs ev.folder with
      | none => simp
      | some st =>
        cases hme : st.mediaExists with
        | false => simp [hme]
        | true => simp [hme]
    · intro st hst hme
      rw [hst]
      dsimp only
      rw [hme]
      simp
    · cases hst : fsGet fs ev.folder with
      | none => simp
      | some st =>
        dsimp only
        by_cases hl : st.thumbDirExists = true ∧ filename ∈ st.thumbFiles
        · rw [if_pos hl]
          simp
        · rw [if_neg hl]
          simp
    · cases hst : fsGet fs ev.folder with
      | none => simp
      | some st =>
        dsimp only
        by_cases hl : st.thumbDirExists = true ∧ filename ∈ st.thumbFiles
        · rw [if_pos hl]
          simp
        · rw [if_neg hl]
          simp

/-- Witness for C6 on the locked fixture: the key bad is rejected by all
three operations and the key pw is accepted. -/
theorem C6_witness :
    App.event_api eventsLock fsLock "e" "bad" false 1 = App.ApiResp.unauthorized ∧
    App.media_file eventsLock fsLock "e" "a.jpg" "bad" false = App.MediaResp.forbidden ∧
    App.thumb_file eventsLock fsLock "e" "t" "bad" false = some App.ThumbResp.forbidden ∧
    App.event_api eventsLock fsLock "e" "pw" false 1 =
      App.ApiResp.ok (App.paginate (App.get_event_media_list fsLock evLock) 1) ∧
    App.media_file eventsLock fsLock "e" "a.jpg" "pw" false = App.MediaResp.send "f" "a.jpg" := by
  have h1 := (C6_theorem eventsLock fsLock "e" "bad" "a.jpg" false 1 evLock (by decide)
    (by decide)).1 (by decide) rfl
  have h1t := (C6_theorem eventsLock fsLock "e" "bad" "t" false 1 evLock (by decide)
    (by decide)).1 (by decide) rfl
  have h2 := (C6_theorem eventsLock fsLock "e" "pw" "a.jpg" false 1 evLock (by decide)
    (by decide)).2 rfl
  exact ⟨h1.1, h1.2.1, h1t.2.2, h2.1,
    h2.2.2.1 ⟨true, ["a.jpg"], true, ["a.jpg.webp"]⟩ (by decide) (by decide)⟩

theorem revSplitAtDot_append_webp (rb : List Char) :
    revSplitAtDot (['p', 'b', 'e', 'w', '.'] ++ rb) =
      some (['p', 'b', 'e', 'w', '.'], rb) := by
  simp [revSplitAtDot]

theorem splitext_append_webp (b : String) (h : ∃ c ∈ b.data, c ≠ '.') :
    splitext (b ++ ".webp") = (b, ".webp") := by
  have hdata : (b ++ ".webp").data = b.data ++ ['.', 'w', 'e', 'b', 'p'] := rfl
  unfold splitext
  rw [hdata, List.reverse_append]
  have hrev : (['.', 'w', 'e', 'b', 'p'] : List Char).reverse = ['p', 'b', 'e', 'w', '.'] := rfl
  rw [hrev, revSplitAtDot_append_webp]
  have hall : (b.data.reverse.all (fun c => decide (c = '.'))) = false := by
    obtain ⟨c, hc, hcne⟩ := h
    apply Bool.eq_false_iff.mpr
    intro hcontra
    rw [List.all_eq_true] at hcontra
    have := hcontra c (List.mem_reverse.mpr hc)
    exact hcne (of_decide_eq_true this)
  dsimp only
  rw [hall]
  simp only [Bool.false_eq_true, if_false]
  rw [List.reverse_reverse]
  rfl

theorem splitext_nondot_of_ext (s : String) (h : (splitext s).2 ≠ "") :
    ∃ c ∈ (splitext s).1.data, c ≠ '.' := by
  unfold splitext at *
  cases hr : revSplitAtDot s.data.reverse with
  | none => rw [hr] at h; exact absurd rfl h
  | some p =>
    obtain ⟨re, rb⟩ := p
    rw [hr] at h
    dsimp only at h ⊢
    by_cases hall : (rb.all (fun c => decide (c = '.'))) = true
    · rw [if_pos hall] at h
      exact absurd rfl h
    · rw [if_neg hall] at h ⊢
      rw [List.all_eq_true] at hall
      push_neg at hall
      obtain ⟨c, hc, hcne⟩ := hall
      exact ⟨c, List.mem_reverse.mpr hc, fun he => hcne (decide_eq_true he)⟩

theorem ext_ne_empty_of_media (s : String)
    (h : strLower (splitext s).2 ∈ Sync.IMAGE_EXTS ∨
      strLower (splitext s).2 ∈ Sync.VIDEO_EXTS) :
    (splitext s).2 ≠ "" := by
  intro he
  rw [he] at h
  revert h
  decide

theorem stem_nondot_of_media (s : String)
    (h : strLower (splitext s).2 ∈ Sync.IMAGE_EXTS ∨
      strLower (splitext s).2 ∈ Sync.VIDEO_EXTS) :
    ∃ c ∈ (splitext s).1.data, c ≠ '.' :=
  splitext_nondot_of_ext s (ext_ne_empty_of_media s h)

theorem splitext_stem_webp (s : String)
    (h : strLower (splitext s).2 ∈ Sync.IMAGE_EXTS ∨
      strLower (splitext s).2 ∈ Sync.VIDEO_EXTS) :
    splitext ((splitext s).1 ++ ".webp") = ((splitext s).1, ".webp") :=
  splitext_append_webp _ (stem_nondot_of_media s h)

theorem strLower_webp : strLower ".webp" = ".webp" := by decide

theorem lookup_setAll_same {β : Type} (l : List (String × β)) (k : String) (v w : β)
    (h : lookupStr l k = some w) : lookupStr (setAll l k v) k = some v := by
  induction l with
  | nil => simp [lookupStr] at h
  | cons kv rest ih =>
    obtain ⟨k1, v1⟩ := kv
    simp only [lookupStr] at h
    simp only [setAll]
    by_cases hk : k1 = k
    · rw [if_pos hk] at h
      rw [if_pos hk]
      simp only [lookupStr]
      rw [if_pos hk]
    · rw [if_neg hk] at h
      rw [if_neg hk]
      simp only [lookupStr]
      rw [if_neg hk]
      exact ih h

theorem lookup_setAll_ne {β : Type} (l : List (String × β)) (k k2 : String) (v : β)
    (h : k ≠ k2) : lookupStr (setAll l k v) k2 = lookupStr l k2 := by
  induction l with
  | nil => rfl
  | cons kv rest ih =>
    obtain ⟨k1, v1⟩ := kv
    simp only [setAll]
    by_cases hk : k1 = k
    · rw [if_pos hk]
      simp only [lookupStr]
      rw [if_neg (hk ▸ h : k1 ≠ k2), if_neg (hk ▸ h : k1 ≠ k2)]
      exact ih
    · rw [if_neg hk]
      simp only [lookupStr]
      by_cases hk2 : k1 = k2
      · rw [if_pos hk2, if_pos hk2]
      · rw [if_neg hk2, if_neg hk2]
        exact ih

theorem setAll_keys {β : Type} (l : List (String × β)) (k : String) (v : β) :
    (setAll l k v).map Prod.fst = l.map Prod.fst := by
  induction l with
  | nil => rfl
  | cons kv rest ih =>
    obtain ⟨k1, v1⟩ := kv
    simp only [setAll]
    by_cases hk : k1 = k
    · rw [if_pos hk]
      simp only [List.map_cons, ih]
    · rw [if_neg hk]
      simp only [List.map_cons, ih]

theorem setAll_not_mem {β : Type} (l : List (String × β)) (k : String) (v : β)
    (h : k ∉ l.map Prod.fst) : setAll l k v = l := by
  induction l with
  | nil => rfl
  | cons kv rest ih =>
    obtain ⟨k1, v1⟩ := kv
    simp only [List.map_cons, List.mem_cons] at h
    push_neg at h
    simp only [setAll]
    rw [if_neg (fun he => h.1 he.symm)]
    rw [ih h.2]

theorem setAll_self {β : Type} (l : List (String × β)) (k : String) (v : β)
    (hN : (l.map Prod.fst).Nodup) (h : lookupStr l k = some v) : setAll l k v = l := by
  induction l with
  | nil => rfl
  | cons kv rest ih =>
    obtain ⟨k1, v1⟩ := kv
    simp only [List.map_cons, List.nodup_cons] at hN
    simp only [lookupStr] at h
    simp only [setAll]
    by_cases hk : k1 = k
    · rw [if_pos hk] at h
      rw [if_pos hk]
      injection h with hv
      subst hv
      rw [setAll_not_mem rest k v1 (hk ▸ hN.1)]
    · rw [if_neg hk] at h
      rw [if_neg hk]
      rw [ih hN.2 h]

theorem mem_validBases (media : List String) (fname : String)
    (hm : fname ∈ media)
    (hr : strLower (splitext fname).2 ∈ Sync.IMAGE_EXTS ∨
      strLower (splitext fname).2 ∈ Sync.VIDEO_EXTS) :
    (splitext fname).1 ∈ Sync.validBases media := by
  unfold Sync.validBases
  apply List.mem_filterMap.mpr
  exact ⟨fname, hm, by rw [if_pos hr]⟩

theorem validBases_spec (media : List String) (b : String)
    (h : b ∈ Sync.validBases media) :
    ∃ fname ∈ media,
      (strLower (splitext fname).2 ∈ Sync.IMAGE_EXTS ∨
        strLower (splitext fname).2 ∈ Sync.VIDEO_EXTS) ∧ (splitext fname).1 = b := by
  unfold Sync.validBases at h
  obtain ⟨fname, hm, hf⟩ := List.mem_filterMap.mp h
  by_cases hr : strLower (splitext fname).2 ∈ Sync.IMAGE_EXTS ∨
      strLower (splitext fname).2 ∈ Sync.VIDEO_EXTS
  · rw [if_pos hr] at hf
    injection hf with hb
    exact ⟨fname, hm, hr, hb⟩
  · rw [if_neg hr] at hf
    cases hf

theorem genPass_mono (env : Env) (f : String) :
    ∀ (media th : List String) (x : String),
      x ∈ th → x ∈ (Sync.genPass env f media th).1 := by
  intro media
  induction media with
  | nil => intro th x hx; exact hx
  | cons fname rest ih =>
    intro th x hx
    simp only [Sync.genPass]
    by_cases h1 : strLower (splitext fname).2 ∈ Sync.IMAGE_EXTS
    · rw [if_pos h1]
      by_cases h2 : ((splitext fname).1 ++ ".webp") ∈ th
      · rw [if_pos h2]
        exact ih th x hx
      · rw [if_neg h2]
        cases hg : env.genOk f fname
        · simp only [Bool.false_eq_true, if_false]
          exact ih th x hx
        · simp only [if_true]
          exact ih (th ++ [(splitext fname).1 ++ ".webp"]) x (List.mem_append_left _ hx)
    · rw [if_neg h1]
      exact ih th x hx

theorem genPass_keeps (env : Env) (f : String) :
    ∀ (media th : List String) (x : String), x ∈ th →
      x ∈ (Sync.genPass env f media th).1 ∧
      ∀ g ∈ (Sync.genPass env f media th).2, g.thumb ≠ x := by
  intro media
  induction media with
  | nil =>
    intro th x hx
    exact ⟨hx, by intro g hg; cases hg⟩
  | cons fname rest ih =>
    intro th x hx
    simp only [Sync.genPass]
    by_cases h1 : strLower (splitext fname).2 ∈ Sync.IMAGE_EXTS
    · rw [if_pos h1]
      by_cases h2 : ((splitext fname).1 ++ ".webp") ∈ th
      · rw [if_pos h2]
        exact ih th x hx
      · rw [if_neg h2]
        have hne : (splitext fname).1 ++ ".webp" ≠ x := fun he => h2 (he ▸ hx)
        cases hg : env.genOk f fname
        · simp only [Bool.false_eq_true, if_false]
          obtain ⟨hmem, hrec⟩ := ih th x hx
          refine ⟨hmem, ?_⟩
          intro g hgmem
          rcases List.mem_cons.mp hgmem with hhd | htl
          · rw [hhd]
            exact hne
          · exact hrec g htl
        · simp only [if_true]
          obtain ⟨hmem, hrec⟩ :=
            ih (th ++ [(splitext fname).1 ++ ".webp"]) x (List.mem_append_left _ hx)
          refine ⟨hmem, ?_⟩
          intro g hgmem
          rcases List.mem_cons.mp hgmem with hhd | htl
          · rw [hhd]
            exact hne
          · exact hrec g htl
    · rw [if_neg h1]
      exact ih th x hx

theorem genPass_folder (env : Env) (f : String) :
    ∀ (media th : List String), ∀ g ∈ (Sync.genPass env f media th).2, g.folder = f := by
  intro media
  induction media with
  | nil => intro th g hg; cases hg
  | cons fname rest ih =>
    intro th g hg
    simp only [Sync.genPass] at hg
    by_cases h1 : strLower (splitext fname).2 ∈ Sync.IMAGE_EXTS
    · rw [if_pos h1] at hg
      by_cases h2 : ((splitext fname).1 ++ ".webp") ∈ th
      · rw [if_pos h2] at hg
        exact ih th g hg
      · rw [if_neg h2] at hg
        cases hgen : env.genOk f fname <;> rw [hgen] at hg
        · simp only [Bool.false_eq_true, if_false] at hg
          rcases List.mem_cons.mp hg with hhd | htl
          · rw [hhd]
          · exact ih th g htl
        · simp only [if_true] at hg
          rcases List.mem_cons.mp hg with hhd | htl
          · rw [hhd]
          · exact ih (th ++ [(splitext fname).1 ++ ".webp"]) g htl
    · rw [if_neg h1] at hg
      exact ih th g hg

theorem genPass_covers (env : Env) (f : String) :
    ∀ (media th : List String) (fname : String), fname ∈ media →
      strLower (splitext fname).2 ∈ Sync.IMAGE_EXTS →
      ((splitext fname).1 ++ ".webp") ∈ (Sync.genPass env f media th).1 ∨
        env.genOk f fname = false := by
  intro media
  induction media with
  | nil => intro th fname hm; cases hm
  | cons g rest ih =>
    intro th fname hm himg
    rcases List.mem_cons.mp hm with hhd | htl
    · subst hhd
      simp only [Sync.genPass]
      rw [if_pos himg]
      by_cases h2 : ((splitext fname).1 ++ ".webp") ∈ th
      · rw [if_pos h2]
        exact Or.inl (genPass_mono env f rest th _ h2)
      · rw [if_neg h2]
        cases hg : env.genOk f fname
        · exact Or.inr rfl
        · simp only [if_true]
          exact Or.inl (genPass_mono env f rest _ _ (List.mem_append_right _ (by simp)))
    · simp only [Sync.genPass]
      by_cases h1 : strLower (splitext g).2 ∈ Sync.IMAGE_EXTS
      · rw [if_pos h1]
        by_cases h2 : ((splitext g).1 ++ ".webp") ∈ th
        · rw [if_pos h2]
          exact ih th fname htl himg
        · rw [if_neg h2]
          cases hg : env.genOk f g
          · simp only [Bool.false_eq_true, if_false]
            exact ih th fname htl himg
          · simp only [if_true]
            exact ih _ fname htl himg
      · rw [if_neg h1]
        exact ih th fname htl himg

theorem genPass_noadd (env : Env) (f : String) :
    ∀ (media th : List String) (x : String),
      (∀ g ∈ media, (splitext g).1 ++ ".webp" ≠ x) → x ∉ th →
      x ∉ (Sync.genPass env f media th).1 := by
  intro media
  induction media with
  | nil => intro th x _ hx; exact hx
  | cons fname rest ih =>
    intro th x hno hx
    simp only [Sync.genPass]
    have hno1 : (splitext fname).1 ++ ".webp" ≠ x := hno fname (List.mem_cons_self _ _)
    have hnor : ∀ g ∈ rest, (splitext g).1 ++ ".webp" ≠ x :=
      fun g hg => hno g (List.mem_cons_of_mem _ hg)
    by_cases h1 : strLower (splitext fname).2 ∈ Sync.IMAGE_EXTS
    · rw [if_pos h1]
      by_cases h2 : ((splitext fname).1 ++ ".webp") ∈ th
      · rw [if_pos h2]
        exact ih th x hnor hx
      · rw [if_neg h2]
        cases hg : env.genOk f fname
        · simp only [Bool.false_eq_true, if_false]
          exact ih th x hnor hx
        · simp only [if_true]
          apply ih _ x hnor
          intro hcon
          rcases List.mem_append.mp hcon with hl | hr
          · exact hx hl
          · rcases List.mem_singleton.mp hr with he
            exact hno1 he.symm
    · rw [if_neg h1]
      exact ih th x hnor hx

theorem genPass_fix (env : Env) (f : String) :
    ∀ (media th : List String),
      (∀ fname ∈ media, strLower (splitext fname).2 ∈ Sync.IMAGE_EXTS →
        env.genOk f fname = true → ((splitext fname).1 ++ ".webp") ∈ th) →
      (Sync.genPass env f media th).1 = th ∧
      ∀ g ∈ (Sync.genPass env f media th).2, g.ok = false := by
  intro media
  induction media with
  | nil => intro th _; exact ⟨rfl, by intro g hg; cases hg⟩
  | cons fname rest ih =>
    intro th hcov
    have hcovr : ∀ g ∈ rest, strLower (splitext g).2 ∈ Sync.IMAGE_EXTS →
        env.genOk f g = true → ((splitext g).1 ++ ".webp") ∈ th :=
      fun g hg => hcov g (List.mem_cons_of_mem _ hg)
    simp only [Sync.genPass]
    by_cases h1 : strLower (splitext fname).2 ∈ Sync.IMAGE_EXTS
    · rw [if_pos h1]
      by_cases h2 : ((splitext fname).1 ++ ".webp") ∈ th
      · rw [if_pos h2]
        exact ih th hcovr
      · rw [if_neg h2]
        cases hg : env.genOk f fname
        · simp only [Bool.false_eq_true, if_false]
          obtain ⟨hth, hrec⟩ := ih th hcovr
          refine ⟨hth, ?_⟩
          intro g hgmem
          rcases List.mem_cons.mp hgmem with hhd | htl
          · rw [hhd]
          · exact hrec g htl
        · exact absurd (hcov fname (List.mem_cons_self _ _) h1 hg) h2
    · rw [if_neg h1]
      exact ih th hcovr

theorem cleanupPass_mem (env : Env) (f : String) (bases : List String) :
    ∀ (th : List String) (x : String),
      x ∈ (Sync.cleanupPass env f bases th).1 ↔
        x ∈ th ∧ ¬(strLower (splitext x).2 = ".webp" ∧ (splitext x).1 ∉ bases ∧
          env.delOk f x = true) := by
  intro th
  induction th with
  | nil =>
    intro x
    simp [Sync.cleanupPass]
  | cons tf rest ih =>
    intro x
    simp only [Sync.cleanupPass]
    by_cases h1 : strLower (splitext tf).2 = ".webp" ∧ (splitext tf).1 ∉ bases
    · rw [if_pos h1]
      cases hd : env.delOk f tf
      · simp only [Bool.false_eq_true, if_false]
        constructor
        · intro hx
          rcases List.mem_cons.mp hx with hhd | htl
          · subst hhd
            exact ⟨List.mem_cons_self _ _, fun hcon => by rw [hcon.2.2] at hd; cases hd⟩
          · obtain ⟨hmem, hnc⟩ := (ih x).mp htl
            exact ⟨List.mem_cons_of_mem _ hmem, hnc⟩
        · intro ⟨hmem, hnc⟩
          rcases List.mem_cons.mp hmem with hhd | htl
          · subst hhd
            exact List.mem_cons_self _ _
          · exact List.mem_cons_of_mem _ ((ih x).mpr ⟨htl, hnc⟩)
      · simp only [if_true]
        constructor
        · intro hx
          obtain ⟨hmem, hnc⟩ := (ih x).mp hx
          exact ⟨List.mem_cons_of_mem _ hmem, hnc⟩
        · intro ⟨hmem, hnc⟩
          rcases List.mem_cons.mp hmem with hhd | htl
          · subst hhd
            exact absurd ⟨h1.1, h1.2, hd⟩ hnc
          · exact (ih x).mpr ⟨htl, hnc⟩
    · rw [if_neg h1]
      constructor
      · intro hx
        rcases List.mem_cons.mp hx with hhd | htl
        · subst hhd
          refine ⟨List.mem_cons_self _ _, fun hcon => h1 ⟨hcon.1, hcon.2.1⟩⟩
        · obtain ⟨hmem, hnc⟩ := (ih x).mp htl
          exact ⟨List.mem_cons_of_mem _ hmem, hnc⟩
      · intro ⟨hmem, hnc⟩
        rcases List.mem_cons.mp hmem with hhd | htl
        · subst hhd
          exact List.mem_cons_self _ _
        · exact List.mem_cons_of_mem _ ((ih x).mpr ⟨htl, hnc⟩)

theorem cleanupPass_dels (env : Env) (f : String) (bases : List String) :
    ∀ (th : List String), ∀ d ∈ (Sync.cleanupPass env f bases th).2,
      d.folder = f ∧ d.thumb ∈ th ∧ strLower (splitext d.thumb).2 = ".webp" ∧
        (splitext d.thumb).1 ∉ bases ∧ d.ok = env.delOk f d.thumb := by
  intro th
  induction th with
  | nil => intro d hd; cases hd
  | cons tf rest ih =>
    intro d hd
    simp only [Sync.cleanupPass] at hd
    by_cases h1 : strLower (splitext tf).2 = ".webp" ∧ (splitext tf).1 ∉ bases
    · rw [if_pos h1] at hd
      cases hdel : env.delOk f tf <;> rw [hdel] at hd
      · simp only [Bool.false_eq_true, if_false] at hd
        rcases List.mem_cons.mp hd with hhd | htl
        · subst hhd
          exact ⟨rfl, List.mem_cons_self _ _, h1.1, h1.2, hdel.symm⟩
        · obtain ⟨ha, hb, hc, hdd, he⟩ := ih d htl
          exact ⟨ha, List.mem_cons_of_mem _ hb, hc, hdd, he⟩
      · simp only [if_true] at hd
        rcases List.mem_cons.mp hd with hhd | htl
        · subst hhd
          exact ⟨rfl, List.mem_cons_self _ _, h1.1, h1.2, hdel.symm⟩
        · obtain ⟨ha, hb, hc, hdd, he⟩ := ih d htl
          exact ⟨ha, List.mem_cons_of_mem _ hb, hc, hdd, he⟩
    · rw [if_neg h1] at hd
      obtain ⟨ha, hb, hc, hdd, he⟩ := ih d hd
      exact ⟨ha, List.mem_cons_of_mem _ hb, hc, hdd, he⟩

theorem cleanupPass_fix (env : Env) (f : String) (bases : List String) :
    ∀ (th : List String),
      (∀ tf ∈ th, strLower (splitext tf).2 = ".webp" → (splitext tf).1 ∉ bases →
        env.delOk f tf = false) →
      (Sync.cleanupPass env f bases th).1 = th ∧
      ∀ d ∈ (Sync.cleanupPass env f bases th).2, d.ok = false := by
  intro th
  induction th with
  | nil => intro _; exact ⟨rfl, by intro d hd; cases hd⟩
  | cons tf rest ih =>
    intro hall
    have hallr : ∀ tf2 ∈ rest, strLower (splitext tf2).2 = ".webp" →
        (splitext tf2).1 ∉ bases → env.delOk f tf2 = false :=
      fun tf2 h2 => hall tf2 (List.mem_cons_of_mem _ h2)
    obtain ⟨hkeep, hdels⟩ := ih hallr
    simp only [Sync.cleanupPass]
    by_cases h1 : strLower (splitext tf).2 = ".webp" ∧ (splitext tf).1 ∉ bases
    · rw [if_pos h1]
      have hdel : env.delOk f tf = false := hall tf (List.mem_cons_self _ _) h1.1 h1.2
      rw [hdel]
      simp only [Bool.false_eq_true, if_false]
      refine ⟨by rw [hkeep], ?_⟩
      intro d hd
      rcases List.mem_cons.mp hd with hhd | htl
      · rw [hhd]
      · exact hdels d htl
    · rw [if_neg h1]
      exact ⟨by rw [hkeep], hdels⟩

theorem procFolderState_mediaExists (env : Env) (f : String) (st : FolderState) :
    (Sync.procFolderState env f st).1.mediaExists = st.mediaExists := rfl

theorem procFolderState_mediaFiles (env : Env) (f : String) (st : FolderState) :
    (Sync.procFolderState env f st).1.mediaFiles = st.mediaFiles := rfl

theorem procFolderState_thumbDir (env : Env) (f : String) (st : FolderState) :
    (Sync.procFolderState env f st).1.thumbDirExists = true := rfl

theorem procFolderState_thumbs (env : Env) (f : String) (st : FolderState) :
    (Sync.procFolderState env f st).1.thumbFiles =
      (Sync.cleanupPass env f (Sync.validBases st.mediaFiles)
        (Sync.genPass env f st.mediaFiles st.thumbFiles).1).1 := rfl

theorem procFolderState_gens (env : Env) (f : String) (st : FolderState) :
    (Sync.procFolderState env f st).2.1 =
      (Sync.genPass env f st.mediaFiles st.thumbFiles).2 := rfl

theorem procFolderState_dels (env : Env) (f : String) (st : FolderState) :
    (Sync.procFolderState env f st).2.2 =
      (Sync.cleanupPass env f (Sync.validBases st.mediaFiles)
        (Sync.genPass env f st.mediaFiles st.thumbFiles).1).2 := rfl

theorem procFolderState_synced (env : Env) (f : String) (st : FolderState) :
    Sync.folderSynced env f (Sync.procFolderState env f st).1 := by
  refine ⟨procFolderState_thumbDir env f st, ?_, ?_⟩
  · intro fname hm himg
    rw [procFolderState_mediaFiles] at hm
    rw [procFolderState_thumbs]
    rcases genPass_covers env f st.mediaFiles st.thumbFiles fname hm himg with hin | hfail
    · left
      apply (cleanupPass_mem env f _ _ _).mpr
      refine ⟨hin, ?_⟩
      intro hcon
      have hse := splitext_stem_webp fname (Or.inl himg)
      rw [hse] at hcon
      exact hcon.2.1 (mem_validBases st.mediaFiles fname hm (Or.inl himg))
    · right
      exact hfail
  · intro tf hm hwebp
    rw [procFolderState_thumbs] at hm
    rw [procFolderState_mediaFiles]
    have := (cleanupPass_mem env f _ _ _).mp hm
    by_cases hb : (splitext tf).1 ∈ Sync.validBases st.mediaFiles
    · exact Or.inl hb
    · right
      cases hd : env.delOk f tf
      · rfl
      · exact absurd ⟨hwebp, hb, hd⟩ this.2

theorem folderSynced_fixpoint (env : Env) (f : String) (st : FolderState)
    (h : Sync.folderSynced env f st) :
    (Sync.procFolderState env f st).1 = st ∧
    (∀ g ∈ (Sync.procFolderState env f st).2.1, g.ok = false) ∧
    (∀ d ∈ (Sync.procFolderState env f st).2.2, d.ok = false) := by
  obtain ⟨htd, hgen, hdel⟩ := h
  have hg := genPass_fix env f st.mediaFiles st.thumbFiles (by
    intro fname hm himg hok
    rcases hgen fname hm himg with hin | hfail
    · exact hin
    · rw [hok] at hfail; cases hfail)
  have hc := cleanupPass_fix env f (Sync.validBases st.mediaFiles)
    (Sync.genPass env f st.mediaFiles st.thumbFiles).1 (by
    intro tf hm hwebp hnb
    rw [hg.1] at hm
    rcases hdel tf hm hwebp with hin | hfail
    · exact absurd hin hnb
    · exact hfail)
  refine ⟨?_, ?_, ?_⟩
  · obtain ⟨me, mf, td, tfs⟩ := st
    simp only at htd hg hc
    subst htd
    have hred : (Sync.procFolderState env f ⟨me, mf, true, tfs⟩).1 =
        ⟨me, mf, true, (Sync.cleanupPass env f (Sync.validBases mf)
          (Sync.genPass env f mf tfs).1).1⟩ := rfl
    rw [hred, hc.1, hg.1]
  · rw [procFolderState_gens]
    exact hg.2
  · rw [procFolderState_dels]
    exact hc.2

theorem processEvent_some (env : Env) (ev : Event) (fs : FS)
    (out : FS × List GenRec × List DelRec)
    (h : Sync.processEvent env ev fs = some out) :
    (fsGet fs ev.folder = none ∧ out = (fs, [], [])) ∨
    (∃ st, fsGet fs ev.folder = some st ∧ st.mediaExists = false ∧ out = (fs, [], [])) ∨
    (∃ st, fsGet fs ev.folder = some st ∧ st.mediaExists = true ∧
      out = (fsSet fs ev.folder (Sync.procFolderState env ev.folder st).1,
        (Sync.procFolderState env ev.folder st).2.1,
        (Sync.procFolderState env ev.folder st).2.2)) := by
  unfold Sync.processEvent at h
  cases hget : fsGet fs ev.folder with
  | none =>
    rw [hget] at h
    dsimp only at h
    injection h with h
    exact Or.inl ⟨rfl, h.symm⟩
  | some st =>
    rw [hget] at h
    dsimp only at h
    cases hme : st.mediaExists with
    | false =>
      rw [hme] at h
      simp only [if_true] at h
      injection h with h
      exact Or.inr (Or.inl ⟨st, rfl, hme, h.symm⟩)
    | true =>
      rw [hme] at h
      simp only [Bool.true_eq_false, if_false] at h
      by_cases hmk : st.thumbDirExists = false ∧ env.mkdirOk ev.folder = false
      · rw [if_pos hmk] at h
        cases h
      · rw [if_neg hmk] at h
        injection h with h
        exact Or.inr (Or.inr ⟨st, rfl, hme, h.symm⟩)

theorem processEvent_frame (env : Env) (ev : Event) (fs : FS)
    (out : FS × List GenRec × List DelRec)
    (h : Sync.processEvent env ev fs = some out) (f : String) :
    (fsGet out.1 f).map (fun st => (st.mediaExists, st.mediaFiles)) =
      (fsGet fs f).map (fun st => (st.mediaExists, st.mediaFiles)) := by
  rcases processEvent_some env ev fs out h with ⟨_, hout⟩ | ⟨st, _, _, hout⟩ |
    ⟨st, hget, _, hout⟩
  · rw [hout]
  · rw [hout]
  · rw [hout]
    by_cases hf : ev.folder = f
    · subst hf
      show (lookupStr (setAll fs.dirs ev.folder _) ev.folder).map _ = _
      rw [lookup_setAll_same fs.dirs ev.folder _ st hget, hget]
      rfl
    · show (lookupStr (setAll fs.dirs ev.folder _) f).map _ = _
      rw [lookup_setAll_ne fs.dirs ev.folder f _ hf]
      rfl

theorem processEvent_keys (env : Env) (ev : Event) (fs : FS)
    (out : FS × List GenRec × List DelRec)
    (h : Sync.processEvent env ev fs = some out) :
    out.1.dirs.map Prod.fst = fs.dirs.map Prod.fst := by
  rcases processEvent_some env ev fs out h with ⟨_, hout⟩ | ⟨st, _, _, hout⟩ |
    ⟨st, hget, _, hout⟩
  · rw [hout]
  · rw [hout]
  · rw [hout]
    exact setAll_keys fs.dirs ev.folder _

theorem processEvents_frame (env : Env) :
    ∀ (evs : List (String × Event)) (fs : FS) (gs : List GenRec) (ds : List DelRec)
      (out : FS × List GenRec × List DelRec),
      Sync.processEvents env evs fs gs ds = some out →
      (∀ f, (fsGet out.1 f).map (fun st => (st.mediaExists, st.mediaFiles)) =
        (fsGet fs f).map (fun st => (st.mediaExists, st.mediaFiles))) ∧
      out.1.dirs.map Prod.fst = fs.dirs.map Prod.fst := by
  intro evs
  induction evs with
  | nil =>
    intro fs gs ds out h
    simp only [Sync.processEvents] at h
    injection h with h
    rw [← h]
    exact ⟨fun f => rfl, rfl⟩
  | cons kv rest ih =>
    intro fs gs ds out h
    simp only [Sync.processEvents] at h
    cases hpe : Sync.processEvent env kv.2 fs with
    | none => rw [hpe] at h; cases h
    | some out1 =>
      rw [hpe] at h
      dsimp only at h
      obtain ⟨hframe, hkeys⟩ := ih out1.1 (gs ++ out1.2.1) (ds ++ out1.2.2) out h
      constructor
      · intro f
        rw [hframe f, processEvent_frame env kv.2 fs out1 hpe f]
      · rw [hkeys, processEvent_keys env kv.2 fs out1 hpe]

theorem processEvents_untouched (env : Env) (f : String) :
    ∀ (evs : List (String × Event)) (fs : FS) (gs : List GenRec) (ds : List DelRec)
      (out : FS × List GenRec × List DelRec),
      Sync.processEvents env evs fs gs ds = some out →
      (∀ kv ∈ evs, (kv : String × Event).2.folder ≠ f) →
      fsGet out.1 f = fsGet fs f := by
  intro evs
  induction evs with
  | nil =>
    intro fs gs ds out h _
    simp only [Sync.processEvents] at h
    injection h with h
    rw [← h]
  | cons kv rest ih =>
    intro fs gs ds out h hno
    simp only [Sync.processEvents] at h
    cases hpe : Sync.processEvent env kv.2 fs with
    | none => rw [hpe] at h; cases h
    | some out1 =>
      rw [hpe] at h
      dsimp only at h
      have hrest := ih out1.1 _ _ out h (fun kv2 h2 => hno kv2 (List.mem_cons_of_mem _ h2))
      rw [hrest]
      rcases processEvent_some env kv.2 fs out1 hpe with ⟨_, hout⟩ | ⟨st, _, _, hout⟩ |
        ⟨st, hget, _, hout⟩
      · rw [hout]
      · rw [hout]
      · rw [hout]
        show lookupStr (setAll fs.dirs kv.2.folder _) f = _
        rw [lookup_setAll_ne fs.dirs kv.2.folder f _ (hno kv (List.mem_cons_self _ _))]
        rfl

theorem processEvents_establishes (env : Env) (f : String) (M : List String)
    (P : FolderState → Prop)
    (hEst : ∀ st : FolderState, st.mediaExists = true → st.mediaFiles = M →
      P (Sync.procFolderState env f st).1) :
    ∀ (evs : List (String × Event)) (fs : FS) (gs : List GenRec) (ds : List DelRec)
      (out : FS × List GenRec × List DelRec),
      Sync.processEvents env evs fs gs ds = some out →
      (∃ kv ∈ evs, (kv : String × Event).2.folder = f) →
      ∀ st0, fsGet fs f = some st0 → st0.mediaExists = true → st0.mediaFiles = M →
      ∃ st1, fsGet out.1 f = some st1 ∧ st1.mediaExists = true ∧
        st1.mediaFiles = M ∧ P st1 := by
  intro evs
  induction evs with
  | nil =>
    intro fs gs ds out h hex st0 hget hme hmf
    obtain ⟨kv, hkv, _⟩ := hex
    cases hkv
  | cons kv rest ih =>
    intro fs gs ds out h hex st0 hget hme hmf
    simp only [Sync.processEvents] at h
    cases hpe : Sync.processEvent env kv.2 fs with
    | none => rw [hpe] at h; cases h
    | some out1 =>
      rw [hpe] at h
      dsimp only at h
      by_cases hrest : ∃ kv2 ∈ rest, (kv2 : String × Event).2.folder = f
      · have hfr := processEvent_frame env kv.2 fs out1 hpe f
        rw [hget] at hfr
        cases hget1 : fsGet out1.1 f with
        | none => rw [hget1] at hfr; cases hfr
        | some st0b =>
          rw [hget1] at hfr
          have hfr2 : (st0b.mediaExists, st0b.mediaFiles) =
              (st0.mediaExists, st0.mediaFiles) := by
            simpa using hfr
          have hme1 : st0b.mediaExists = true := by
            have h1 : st0b.mediaExists = st0.mediaExists := congrArg Prod.fst hfr2
            rw [h1, hme]
          have hmf1 : st0b.mediaFiles = M := by
            have h2 : st0b.mediaFiles = st0.mediaFiles := congrArg Prod.snd hfr2
            rw [h2, hmf]
          exact ih out1.1 _ _ out h hrest st0b hget1 hme1 hmf1
      · obtain ⟨kv0, hkv0, hkv0f⟩ := hex
        rcases List.mem_cons.mp hkv0 with hhd | htl
        · subst hhd
          rcases processEvent_some env kv0.2 fs out1 hpe with ⟨hnone, _⟩ |
            ⟨st, hst, hmef, _⟩ | ⟨st, hst, hmet, hout⟩
          · rw [hkv0f] at hnone
            rw [hget] at hnone
            cases hnone
          · rw [hkv0f] at hst
            rw [hget] at hst
            injection hst with hst
            rw [← hst] at hmef
            rw [hme] at hmef
            cases hmef
          · rw [hkv0f] at hst
            rw [hget] at hst
            injection hst with hst
            subst hst
            have huntouched := processEvents_untouched env f rest out1.1 _ _ out h
              (fun kv2 h2 hf2 => hrest ⟨kv2, h2, hf2⟩)
            rw [huntouched, hout]
            have hget1 : fsGet (fsSet fs kv0.2.folder
                (Sync.procFolderState env kv0.2.folder st0).1) f =
                some (Sync.procFolderState env kv0.2.folder st0).1 := by
              show lookupStr (setAll fs.dirs kv0.2.folder _) f = _
              rw [hkv0f]
              exact lookup_setAll_same fs.dirs f _ st0 hget
            rw [hget1]
            rw [hkv0f]
            refine ⟨(Sync.procFolderState env f st0).1, rfl, ?_, ?_, ?_⟩
            · rw [procFolderState_mediaExists, hme]
            · rw [procFolderState_mediaFiles, hmf]
            · exact hEst st0 hme hmf
        · exact absurd ⟨kv0, htl, hkv0f⟩ hrest

theorem processEvents_keep (env : Env) (f : String) (tf : String) :
    ∀ (evs : List (String × Event)) (fs : FS) (gs : List GenRec) (ds : List DelRec)
      (out : FS × List GenRec × List DelRec),
      Sync.processEvents env evs fs gs ds = some out →
      ∀ st0, fsGet fs f = some st0 →
      tf ∈ st0.thumbFiles → (splitext tf).1 ∈ Sync.validBases st0.mediaFiles →
      ∃ st1, fsGet out.1 f = some st1 ∧ tf ∈ st1.thumbFiles ∧
        (∀ g ∈ out.2.1, g ∈ gs ∨ ¬(g.folder = f ∧ g.thumb = tf)) ∧
        (∀ d ∈ out.2.2, d ∈ ds ∨ ¬(d.folder = f ∧ d.thumb = tf)) := by
  intro evs
  induction evs with
  | nil =>
    intro fs gs ds out h st0 hget htf hbase
    simp only [Sync.processEvents] at h
    injection h with h
    rw [← h]
    exact ⟨st0, hget, htf, fun g hg => Or.inl hg, fun d hd => Or.inl hd⟩
  | cons kv rest ih =>
    intro fs gs ds out h st0 hget htf hbase
    simp only [Sync.processEvents] at h
    cases hpe : Sync.processEvent env kv.2 fs with
    | none => rw [hpe] at h; cases h
    | some out1 =>
      rw [hpe] at h
      dsimp only at h
      rcases processEvent_some env kv.2 fs out1 hpe with ⟨hnone, hout⟩ |
        ⟨st, hst, hmef, hout⟩ | ⟨st, hst, hmet, hout⟩
      · rw [hout] at h
        obtain ⟨st1, ha, hb, hc, hd⟩ := ih fs _ _ out h st0 hget htf hbase
        refine ⟨st1, ha, hb, ?_, ?_⟩
        · intro g hg
          rcases hc g hg with hin | hnb
          · rcases List.mem_append.mp hin with h1 | h2
            · exact Or.inl h1
            · cases h2
          · exact Or.inr hnb
        · intro d hd2
          rcases hd d hd2 with hin | hnb
          · rcases List.mem_append.mp hin with h1 | h2
            · exact Or.inl h1
            · cases h2
          · exact Or.inr hnb
      · rw [hout] at h
        obtain ⟨st1, ha, hb, hc, hd⟩ := ih fs _ _ out h st0 hget htf hbase
        refine ⟨st1, ha, hb, ?_, ?_⟩
        · intro g hg
          rcases hc g hg with hin | hnb
          · rcases List.mem_append.mp hin with h1 | h2
            · exact Or.inl h1
            · cases h2
          · exact Or.inr hnb
        · intro d hd2
          rcases hd d hd2 with hin | hnb
          · rcases List.mem_append.mp hin with h1 | h2
            · exact Or.inl h1
            · cases h2
          · exact Or.inr hnb
      · rw [hout] at h
        by_cases hf : kv.2.folder = f
        · rw [hf] at hst
          rw [hget] at hst
          injection hst with hst
          subst hst
          have hkeep := genPass_keeps env kv.2.folder st0.mediaFiles st0.thumbFiles tf htf
          have htf1 : tf ∈ (Sync.procFolderState env kv.2.folder st0).1.thumbFiles := by
            rw [procFolderState_thumbs]
            apply (cleanupPass_mem env kv.2.folder _ _ _).mpr
            refine ⟨hkeep.1, ?_⟩
            intro hcon
            exact hcon.2.1 hbase
          have hget1 : fsGet (fsSet fs kv.2.folder
              (Sync.procFolderState env kv.2.folder st0).1) f =
              some (Sync.procFolderState env kv.2.folder st0).1 := by
            show lookupStr (setAll fs.dirs kv.2.folder _) f = _
            rw [hf]
            exact lookup_setAll_same fs.dirs f _ st0 (hf ▸ hget)
          have hbase1 : (splitext tf).1 ∈
              Sync.validBases (Sync.procFolderState env kv.2.folder st0).1.mediaFiles := by
            rw [procFolderState_mediaFiles]
            exact hbase
          obtain ⟨st1, ha, hb, hc, hd⟩ := ih _ _ _ out h _ hget1 htf1 hbase1
          refine ⟨st1, ha, hb, ?_, ?_⟩
          · intro g hg
            rcases hc g hg with hin | hnb
            · rcases List.mem_append.mp hin with h1 | h2
              · exact Or.inl h1
              · right
                intro hbad
                rw [procFolderState_gens] at h2
                exact hkeep.2 g h2 hbad.2
            · exact Or.inr hnb
          · intro d hd2
            rcases hd d hd2 with hin | hnb
            · rcases List.mem_append.mp hin with h1 | h2
              · exact Or.inl h1
              · right
                intro hbad
                rw [procFolderState_dels] at h2
                obtain ⟨_, _, _, hnb2, _⟩ := cleanupPass_dels env kv.2.folder _ _ d h2
                rw [hbad.2] at hnb2
                exact hnb2 hbase
            · exact Or.inr hnb
        · have hget1 : fsGet (fsSet fs kv.2.folder
              (Sync.procFolderState env kv.2.folder st).1) f = some st0 := by
            show lookupStr (setAll fs.dirs kv.2.folder _) f = _
            rw [lookup_setAll_ne fs.dirs kv.2.folder f _ hf]
            exact hget
          obtain ⟨st1, ha, hb, hc, hd⟩ := ih _ _ _ out h st0 hget1 htf hbase
          refine ⟨st1, ha, hb, ?_, ?_⟩
          · intro g hg
            rcases hc g hg with hin | hnb
            · rcases List.mem_append.mp hin with h1 | h2
              · exact Or.inl h1
              · right
                intro hbad
                rw [procFolderState_gens] at h2
                have hgf := genPass_folder env kv.2.folder st.mediaFiles st.thumbFiles g h2
                exact hf (by rw [← hgf]; exact hbad.1)
            · exact Or.inr hnb
          · intro d hd2
            rcases hd d hd2 with hin | hnb
            · rcases List.mem_append.mp hin with h1 | h2
              · exact Or.inl h1
              · right
                intro hbad
                rw [procFolderState_dels] at h2
                obtain ⟨hdf, _, _, _, _⟩ := cleanupPass_dels env kv.2.folder _ _ d h2
                exact hf (by rw [← hdf]; exact hbad.1)
            · exact Or.inr hnb

theorem processEvents_fixpoint (env : Env) :
    ∀ (evs : List (String × Event)) (fs : FS),
      (fs.dirs.map Prod.fst).Nodup →
      (∀ kv ∈ evs, ∀ st, fsGet fs (kv : String × Event).2.folder = some st →
        st.mediaExists = true → st.thumbDirExists = true ∧
        (Sync.procFolderState env kv.2.folder st).1 = st ∧
        (∀ g ∈ (Sync.procFolderState env kv.2.folder st).2.1, g.ok = false) ∧
        (∀ d ∈ (Sync.procFolderState env kv.2.folder st).2.2, d.ok = false)) →
      ∀ gs ds, ∃ G D, Sync.processEvents env evs fs gs ds = some (fs, G, D) ∧
        (∀ g ∈ G, g ∈ gs ∨ g.ok = false) ∧
        (∀ d ∈ D, d ∈ ds ∨ d.ok = false) := by
  intro evs
  induction evs with
  | nil =>
    intro fs hN hfix gs ds
    exact ⟨gs, ds, rfl, fun g hg => Or.inl hg, fun d hd => Or.inl hd⟩
  | cons kv rest ih =>
    intro fs hN hfix gs ds
    have hfixr : ∀ kv2 ∈ rest, ∀ st, fsGet fs (kv2 : String × Event).2.folder = some st →
        st.mediaExists = true → st.thumbDirExists = true ∧
        (Sync.procFolderState env kv2.2.folder st).1 = st ∧
        (∀ g ∈ (Sync.procFolderState env kv2.2.folder st).2.1, g.ok = false) ∧
        (∀ d ∈ (Sync.procFolderState env kv2.2.folder st).2.2, d.ok = false) :=
      fun kv2 h2 => hfix kv2 (List.mem_cons_of_mem _ h2)
    simp only [Sync.processEvents]
    cases hget : fsGet fs kv.2.folder with
    | none =>
      unfold Sync.processEvent
      rw [hget]
      dsimp only
      obtain ⟨G, D, hrun, hG, hD⟩ := ih fs hN hfixr (gs ++ []) (ds ++ [])
      refine ⟨G, D, hrun, ?_, ?_⟩
      · intro g hg
        rcases hG g hg with hin | hok
        · rcases List.mem_append.mp hin with h1 | h2
          · exact Or.inl h1
          · cases h2
        · exact Or.inr hok
      · intro d hd
        rcases hD d hd with hin | hok
        · rcases List.mem_append.mp hin with h1 | h2
          · exact Or.inl h1
          · cases h2
        · exact Or.inr hok
    | some st =>
      cases hme : st.mediaExists with
      | false =>
        unfold Sync.processEvent
        rw [hget]
        dsimp only
        rw [hme]
        simp only [if_true]
        obtain ⟨G, D, hrun, hG, hD⟩ := ih fs hN hfixr (gs ++ []) (ds ++ [])
        refine ⟨G, D, hrun, ?_, ?_⟩
        · intro g hg
          rcases hG g hg with hin | hok
          · rcases List.mem_append.mp hin with h1 | h2
            · exact Or.inl h1
            · cases h2
          · exact Or.inr hok
        · intro d hd
          rcases hD d hd with hin | hok
          · rcases List.mem_append.mp hin with h1 | h2
            · exact Or.inl h1
            · cases h2
          · exact Or.inr hok
      | true =>
        obtain ⟨htd, hfixst, hgok, hdok⟩ :=
          hfix kv (List.mem_cons_self _ _) st hget hme
        unfold Sync.processEvent
        rw [hget]
        dsimp only
        rw [hme]
        simp only [Bool.true_eq_false, if_false]
        rw [if_neg (by rw [htd]; intro hcon; cases hcon.1)]
        have hset : fsSet fs kv.2.folder (Sync.procFolderState env kv.2.folder st).1 = fs := by
          rw [hfixst]
          show FS.mk (setAll fs.dirs kv.2.folder st) = fs
          rw [setAll_self fs.dirs kv.2.folder st hN hget]
        rw [hset]
        obtain ⟨G, D, hrun, hG, hD⟩ := ih fs hN hfixr
          (gs ++ (Sync.procFolderState env kv.2.folder st).2.1)
          (ds ++ (Sync.procFolderState env kv.2.folder st).2.2)
        refine ⟨G, D, hrun, ?_, ?_⟩
        · intro g hg
          rcases hG g hg with hin | hok
          · rcases List.mem_append.mp hin with h1 | h2
            · exact Or.inl h1
            · exact Or.inr (hgok g h2)
          · exact Or.inr hok
        · intro d hd
          rcases hD d hd with hin | hok
          · rcases List.mem_append.mp hin with h1 | h2
            · exact Or.inl h1
            · exact Or.inr (hdok d h2)
          · exact Or.inr hok

theorem processEvents_total (env : Env) (hmk : ∀ f2, env.mkdirOk f2 = true) :
    ∀ (evs : List (String × Event)) (fs : FS) (gs : List GenRec) (ds : List DelRec),
      ∃ out, Sync.processEvents env evs fs gs ds = some out := by
  intro evs
  induction evs with
  | nil => intro fs gs ds; exact ⟨(fs, gs, ds), rfl⟩
  | cons kv rest ih =>
    intro fs gs ds
    simp only [Sync.processEvents]
    cases hget : fsGet fs kv.2.folder with
    | none =>
      unfold Sync.processEvent
      rw [hget]
      dsimp only
      exact ih fs _ _
    | some st =>
      unfold Sync.processEvent
      rw [hget]
      dsimp only
      cases hme : st.mediaExists with
      | false =>
        simp only [if_true]
        exact ih fs _ _
      | true =>
        simp only [Bool.true_eq_false, if_false]
        rw [if_neg (by rw [hmk kv.2.folder]; intro hcon; cases hcon.2)]
        exact ih _ _ _

theorem sync_events_some (env : Env) (fs : FS) (events : Manifest)
    (r : Sync.SyncResult) (h : Sync.sync_events env fs events = some r) :
    r.manifest = Sync.prune (fs.dirs.map Prod.fst)
      (Sync.discover (fs.dirs.map Prod.fst) events) ∧
    Sync.processEvents env r.manifest fs [] [] = some (r.fs, r.gens, r.dels) := by
  unfold Sync.sync_events at h
  dsimp only at h
  cases hp : Sync.processEvents env
      (Sync.prune (fs.dirs.map Prod.fst) (Sync.discover (fs.dirs.map Prod.fst) events))
      fs [] [] with
  | none => rw [hp] at h; cases h
  | some out =>
    rw [hp] at h
    dsimp only at h
    injection h with h
    rw [← h]
    exact ⟨rfl, hp⟩


theorem mem_insertSorted (x a : String) :
    ∀ l : List String, a ∈ App.insertSorted x l ↔ a = x ∨ a ∈ l := by
  intro l
  induction l with
  | nil => simp [App.insertSorted]
  | cons y ys ih =>
    simp only [App.insertSorted]
    by_cases h : x ≤ y
    · rw [if_pos h]
      simp [List.mem_cons]
    · rw [if_neg h]
      simp only [List.mem_cons, ih]
      tauto

theorem mem_sortStrings (a : String) (l : List String) :
    a ∈ App.sortStrings l ↔ a ∈ l := by
  unfold App.sortStrings
  induction l with
  | nil => simp
  | cons y ys ih =>
    simp only [List.foldr_cons, mem_insertSorted, List.mem_cons, ih]

theorem lookupStr_none_of_not_mem {β : Type} (l : List (String × β)) (k : String)
    (h : k ∉ l.map Prod.fst) : lookupStr l k = none := by
  induction l with
  | nil => rfl
  | cons kv rest ih =>
    obtain ⟨k1, v1⟩ := kv
    simp only [List.map_cons, List.mem_cons] at h
    push_neg at h
    simp only [lookupStr]
    rw [if_neg (fun he => h.1 he.symm)]
    exact ih h.2

theorem lookupStr_append {β : Type} (l1 l2 : List (String × β)) (k : String)
    (h : lookupStr l1 k = none) : lookupStr (l1 ++ l2) k = lookupStr l2 k := by
  induction l1 with
  | nil => rfl
  | cons kv rest ih =>
    obtain ⟨k1, v1⟩ := kv
    simp only [lookupStr] at h
    simp only [List.cons_append, lookupStr]
    by_cases hk : k1 = k
    · rw [if_pos hk] at h
      cases h
    · rw [if_neg hk] at h ⊢
      exact ih h

theorem dictInsert_fresh (m : Manifest) (k : String) (v : Event)
    (h : lookupStr m k = none) : dictInsert m k v = m ++ [(k, v)] := by
  unfold dictInsert
  rw [h]
  rfl

theorem discoverAux_noop :
    ∀ (items : List String) (events : Manifest) (existing : List String),
      (∀ d ∈ items, d ≠ "Thumbnail" → d ∈ existing) →
      Sync.discoverAux items events existing = events := by
  intro items
  induction items with
  | nil => intro events existing _; rfl
  | cons item rest ih =>
    intro events existing h
    simp only [Sync.discoverAux]
    rw [if_neg (fun hcon => hcon.2 (h item (List.mem_cons_self _ _) hcon.1))]
    exact ih events existing (fun d hd => h d (List.mem_cons_of_mem _ hd))

theorem discoverAux_fresh :
    ∀ (items : List String) (events : Manifest) (existing : List String),
      items.Nodup →
      (∀ d ∈ items, d ≠ "Thumbnail" → d ∉ existing →
        lookupStr events (slugify0 d) = none ∧
        ∀ d2 ∈ items, d2 ≠ d → d2 ≠ "Thumbnail" → d2 ∉ existing →
          slugify0 d2 ≠ slugify0 d) →
      Sync.discoverAux items events existing =
        events ++ (items.filter (fun d =>
          decide (d ≠ "Thumbnail" ∧ d ∉ existing))).map
          (fun d => (slugify0 d, Sync.defaultEvent d)) := by
  intro items
  induction items with
  | nil => intro events existing _ _; simp [Sync.discoverAux]
  | cons item rest ih =>
    intro events existing hN hfresh
    obtain ⟨hni, hNr⟩ := List.nodup_cons.mp hN
    simp only [Sync.discoverAux]
    by_cases hc : item ≠ "Thumbnail" ∧ item ∉ existing
    · rw [if_pos hc]
      have hlk : lookupStr events (slugify0 item) = none :=
        (hfresh item (List.mem_cons_self _ _) hc.1 hc.2).1
      rw [dictInsert_fresh events _ _ hlk]
      have hfresh2 : ∀ d ∈ rest, d ≠ "Thumbnail" → d ∉ (item :: existing) →
          lookupStr (events ++ [(slugify0 item, Sync.defaultEvent item)]) (slugify0 d) = none ∧
          ∀ d2 ∈ rest, d2 ≠ d → d2 ≠ "Thumbnail" → d2 ∉ (item :: existing) →
            slugify0 d2 ≠ slugify0 d := by
        intro d hd hdt hdne
        simp only [List.mem_cons] at hdne
        push_neg at hdne
        obtain ⟨hlkd, hpair⟩ :=
          hfresh d (List.mem_cons_of_mem _ hd) hdt hdne.2
        constructor
        · rw [lookupStr_append events _ _ hlkd]
          have hslug : slugify0 d ≠ slugify0 item := by
            apply (hfresh item (List.mem_cons_self _ _) hc.1 hc.2).2 d
              (List.mem_cons_of_mem _ hd) hdne.1 hdt hdne.2
          simp only [lookupStr]
          rw [if_neg (fun he => hslug he.symm)]
        · intro d2 hd2 hd2d hd2t hd2ne
          simp only [List.mem_cons] at hd2ne
          push_neg at hd2ne
          exact hpair d2 (List.mem_cons_of_mem _ hd2) hd2d hd2t hd2ne.2
      rw [ih (events ++ [(slugify0 item, Sync.defaultEvent item)]) (item :: existing)
        hNr hfresh2]
      have hfilter : rest.filter (fun d => decide (d ≠ "Thumbnail" ∧ d ∉ (item :: existing))) =
          rest.filter (fun d => decide (d ≠ "Thumbnail" ∧ d ∉ existing)) := by
        apply List.filter_congr
        intro d hd
        have hdi : d ≠ item := fun he => hni (he ▸ hd)
        simp only [decide_eq_decide]
        constructor
        · intro ⟨h1, h2⟩
          exact ⟨h1, fun hmem => h2 (List.mem_cons_of_mem _ hmem)⟩
        · intro ⟨h1, h2⟩
          refine ⟨h1, ?_⟩
          intro hmem
          rcases List.mem_cons.mp hmem with he | hmem2
          · exact hdi he
          · exact h2 hmem2
      rw [hfilter]
      have hfc : (item :: rest).filter (fun d =>
          decide (d ≠ "Thumbnail" ∧ d ∉ existing)) =
          item :: rest.filter (fun d => decide (d ≠ "Thumbnail" ∧ d ∉ existing)) := by
        rw [List.filter_cons_of_pos (by simpa using hc)]
      rw [hfc]
      simp [List.append_assoc]
    · rw [if_neg hc]
      have hfresh2 : ∀ d ∈ rest, d ≠ "Thumbnail" → d ∉ existing →
          lookupStr events (slugify0 d) = none ∧
          ∀ d2 ∈ rest, d2 ≠ d → d2 ≠ "Thumbnail" → d2 ∉ existing →
            slugify0 d2 ≠ slugify0 d := by
        intro d hd hdt hdne
        obtain ⟨hlkd, hpair⟩ := hfresh d (List.mem_cons_of_mem _ hd) hdt hdne
        exact ⟨hlkd, fun d2 hd2 => hpair d2 (List.mem_cons_of_mem _ hd2)⟩
      rw [ih events existing hNr hfresh2]
      have hfc : (item :: rest).filter (fun d =>
          decide (d ≠ "Thumbnail" ∧ d ∉ existing)) =
          rest.filter (fun d => decide (d ≠ "Thumbnail" ∧ d ∉ existing)) := by
        rw [List.filter_cons_of_neg (by simpa using hc)]
      rw [hfc]


/-- C1 amended.  The orphan invariant the code actually maintains: after a
completed sync pass, for every surviving event whose Media directory
exists, the Thumbnail directory exists; every thumbnail file with a .webp
extension has its base among the stems of recognized media files unless
its deletion failed; and every image file (sync recognizes images only
here, not videos) has its stem-named thumbnail unless its generation
failed. -/
theorem C1_theorem (env : Env) (fs : FS) (events : Manifest) (r : Sync.SyncResult)
    (h : Sync.sync_events env fs events = some r)
    (k : String) (ev : Event) (hev : (k, ev) ∈ r.manifest)
    (st1 : FolderState) (hst : fsGet r.fs ev.folder = some st1)
    (hme : st1.mediaExists = true) :
    st1.thumbDirExists = true ∧
    (∀ tf ∈ st1.thumbFiles, strLower (splitext tf).2 = ".webp" →
      (splitext tf).1 ∈ Sync.validBases st1.mediaFiles ∨
        env.delOk ev.folder tf = false) ∧
    (∀ fname ∈ st1.mediaFiles, strLower (splitext fname).2 ∈ Sync.IMAGE_EXTS →
      ((splitext fname).1 ++ ".webp") ∈ st1.thumbFiles ∨
        env.genOk ev.folder fname = false) := by
  obtain ⟨hman, hproc⟩ := sync_events_some env fs events r h
  have hfr := (processEvents_frame env r.manifest fs [] []
    (r.fs, r.gens, r.dels) hproc).1 ev.folder
  rw [hst] at hfr
  cases hget0 : fsGet fs ev.folder with
  | none => rw [hget0] at hfr; cases hfr
  | some st0 =>
    rw [hget0] at hfr
    have hfr2 : (st1.mediaExists, st1.mediaFiles) = (st0.mediaExists, st0.mediaFiles) := by
      simpa using hfr
    have hme0 : st0.mediaExists = true := by
      have h1 : st1.mediaExists = st0.mediaExists := congrArg Prod.fst hfr2
      rw [← h1, hme]
    have hmf0 : st0.mediaFiles = st1.mediaFiles := by
      have h2 : st1.mediaFiles = st0.mediaFiles := congrArg Prod.snd hfr2
      rw [h2]
    obtain ⟨st2, hst2, _, _, hP⟩ := processEvents_establishes env ev.folder
      st1.mediaFiles (Sync.folderSynced env ev.folder)
      (fun st hme2 _ => procFolderState_synced env ev.folder st)
      r.manifest fs [] [] (r.fs, r.gens, r.dels) hproc
      ⟨(k, ev), hev, rfl⟩ st0 hget0 hme0 hmf0
    have hse : st2 = st1 := by
      rw [hst2] at hst
      injection hst with hx
    subst hse
    obtain ⟨htd, hgen, hdel⟩ := hP
    exact ⟨htd, hdel, hgen⟩

/-- Witness for C1 on a folder holding one image: after sync the image
has its stem-named thumbnail and the invariant conjuncts hold. -/
theorem C1_witness :
    ((Sync.sync_events envAll fsUploadThumb [("ev1", evW)] = some rUploadThumb ∧
      ("ev1", evW) ∈ rUploadThumb.manifest ∧
      fsGet rUploadThumb.fs "ev1" =
        some { mediaExists := true, mediaFiles := ["a.jpg"],
               thumbDirExists := true, thumbFiles := ["a.webp"] }) ∧
    ((true = true) ∧
      (∀ tf ∈ ["a.webp"], strLower (splitext tf).2 = ".webp" →
        (splitext tf).1 ∈ Sync.validBases ["a.jpg"] ∨
          envAll.delOk "ev1" tf = false) ∧
      (∀ fname ∈ ["a.jpg"], strLower (splitext fname).2 ∈ Sync.IMAGE_EXTS →
        ((splitext fname).1 ++ ".webp") ∈ ["a.webp"] ∨
          envAll.genOk "ev1" fname = false))) := by
  refine ⟨⟨by decide, by decide, by decide⟩, ?_⟩
  exact C1_theorem envAll fsUploadThumb [("ev1", evW)] rUploadThumb (by decide)
    "ev1" evW (by decide)
    { mediaExists := true, mediaFiles := ["a.jpg"],
      thumbDirExists := true, thumbFiles := ["a.webp"] }
    (by decide) (by decide)

/-- C3 amended.  A thumbnail that already exists under the stem-based
name the sync pass itself uses is left untouched: it is still present
after the pass and no generation or deletion attempt ever targets it.
(The claim fails for upload-path thumbnails named filename plus .webp,
which the pass deletes as orphans; see the counterexample.) -/
theorem C3_theorem (env : Env) (fs : FS) (events : Manifest) (r : Sync.SyncResult)
    (h : Sync.sync_events env fs events = some r)
    (k : String) (ev : Event) (_hev : (k, ev) ∈ r.manifest)
    (st0 : FolderState) (hget : fsGet fs ev.folder = some st0)
    (fname : String) (hm : fname ∈ st0.mediaFiles)
    (himg : strLower (splitext fname).2 ∈ Sync.IMAGE_EXTS)
    (htf : ((splitext fname).1 ++ ".webp") ∈ st0.thumbFiles) :
    ∃ st1, fsGet r.fs ev.folder = some st1 ∧
      ((splitext fname).1 ++ ".webp") ∈ st1.thumbFiles ∧
      (∀ g ∈ r.gens, ¬(g.folder = ev.folder ∧
        g.thumb = (splitext fname).1 ++ ".webp")) ∧
      (∀ d ∈ r.dels, ¬(d.folder = ev.folder ∧
        d.thumb = (splitext fname).1 ++ ".webp")) := by
  obtain ⟨hman, hproc⟩ := sync_events_some env fs events r h
  have hbase : (splitext ((splitext fname).1 ++ ".webp")).1 ∈
      Sync.validBases st0.mediaFiles := by
    rw [splitext_stem_webp fname (Or.inl himg)]
    exact mem_validBases st0.mediaFiles fname hm (Or.inl himg)
  obtain ⟨st1, ha, hb, hc, hd⟩ := processEvents_keep env ev.folder
    ((splitext fname).1 ++ ".webp") r.manifest fs [] []
    (r.fs, r.gens, r.dels) hproc st0 hget htf hbase
  refine ⟨st1, ha, hb, ?_, ?_⟩
  · intro g hg
    rcases hc g hg with hin | hnb
    · cases hin
    · exact hnb
  · intro d hd2
    rcases hd d hd2 with hin | hnb
    · cases hin
    · exact hnb

/-- Witness for C3 on a folder with one image and its stem-named
thumbnail. -/
theorem C3_witness :
    ((Sync.sync_events envAll fsStemThumb [("ev1", evW)] = some rStemThumb ∧
      ("ev1", evW) ∈ rStemThumb.manifest ∧
      fsGet fsStemThumb "ev1" =
        some { mediaExists := true, mediaFiles := ["a.jpg"],
               thumbDirExists := true, thumbFiles := ["a.webp"] } ∧
      "a.jpg" ∈ ["a.jpg"] ∧ strLower (splitext "a.jpg").2 ∈ Sync.IMAGE_EXTS ∧
      ((splitext "a.jpg").1 ++ ".webp") ∈ ["a.webp"]) ∧
    ∃ st1, fsGet rStemThumb.fs "ev1" = some st1 ∧
      ((splitext "a.jpg").1 ++ ".webp") ∈ st1.thumbFiles ∧
      (∀ g ∈ rStemThumb.gens, ¬(g.folder = "ev1" ∧
        g.thumb = (splitext "a.jpg").1 ++ ".webp")) ∧
      (∀ d ∈ rStemThumb.dels, ¬(d.folder = "ev1" ∧
        d.thumb = (splitext "a.jpg").1 ++ ".webp"))) := by
  refine ⟨⟨by decide, by decide, by decide, by decide, by decide, by decide⟩, ?_⟩
  exact C3_theorem envAll fsStemThumb [("ev1", evW)] rStemThumb (by decide)
    "ev1" evW (by decide)
    { mediaExists := true, mediaFiles := ["a.jpg"],
      thumbDirExists := true, thumbFiles := ["a.webp"] }
    (by decide) "a.jpg" (by decide) (by decide) (by decide)

/-- C7 amended.  sync_events runs to completion whenever thumbnail
directory creation succeeds, regardless of how many thumbnail generation
or deletion attempts fail: generation and deletion errors are isolated.
(An os.makedirs failure, by contrast, aborts the pass; see the
counterexample.) -/
theorem C7_theorem (env : Env) (fs : FS) (events : Manifest)
    (hmk : ∀ f, env.mkdirOk f = true) :
    ∃ r, Sync.sync_events env fs events = some r := by
  obtain ⟨out, hout⟩ := processEvents_total env hmk
    (Sync.prune (fs.dirs.map Prod.fst) (Sync.discover (fs.dirs.map Prod.fst) events))
    fs [] []
  refine ⟨⟨Sync.prune (fs.dirs.map Prod.fst)
    (Sync.discover (fs.dirs.map Prod.fst) events), out.1, out.2.1, out.2.2⟩, ?_⟩
  unfold Sync.sync_events
  dsimp only
  rw [hout]

/-- Witness for C7: with an always-succeeding mkdir the pass completes on
a folder that still needs its Thumbnail directory. -/
theorem C7_witness :
    ∃ r, Sync.sync_events envAll fsNeedsThumbDir [] = some r :=
  C7_theorem envAll fsNeedsThumbDir [] (fun _ => rfl)

theorem revSplitAtDot_decomp :
    ∀ (cs re rb : List Char), revSplitAtDot cs = some (re, rb) → cs = re ++ rb := by
  intro cs
  induction cs with
  | nil => intro re rb h; cases h
  | cons c rest ih =>
    intro re rb h
    simp only [revSplitAtDot] at h
    by_cases hc : c = '.'
    · rw [if_pos hc] at h
      injection h with h
      injection h with h1 h2
      rw [← h1, ← h2]
      rfl
    · rw [if_neg hc] at h
      cases hr : revSplitAtDot rest with
      | none => rw [hr] at h; cases h
      | some p =>
        obtain ⟨re0, rb0⟩ := p
        rw [hr] at h
        dsimp only at h
        injection h with h
        injection h with h1 h2
        rw [← h1, ← h2, ih re0 rb0 hr]
        rfl

theorem splitext_base_sub (s : String) :
    ∀ c ∈ (splitext s).1.data, c ∈ s.data := by
  unfold splitext
  cases hr : revSplitAtDot s.data.reverse with
  | none => intro c hc; exact hc
  | some p =>
    obtain ⟨re, rb⟩ := p
    dsimp only
    by_cases hall : (rb.all (fun c => decide (c = '.'))) = true
    · rw [if_pos hall]
      intro c hc
      exact hc
    · rw [if_neg hall]
      intro c hc
      dsimp only at hc
      have hdec := revSplitAtDot_decomp s.data.reverse re rb hr
      have : c ∈ s.data.reverse := by
        rw [hdec]
        exact List.mem_append_right _ (List.mem_reverse.mp hc)
      exact List.mem_reverse.mp this

/-- C10.  The extension-set discrepancy: a media file with extension .3gp
contributes nothing to the valid-base set of the sync pass (its stem is
not counted), the listing layer of utils.py classifies the same extension
as video while the sync sets do not, and after a completed sync pass the
upload-named thumbnail of such a file is gone while the Media Lister still
lists the file as a video with the global fallback thumbnail.  The
hypotheses spell out the scenario: the thumbnail belongs to the .3gp file
alone (no other media file has it as stem) and its deletion succeeds. -/
theorem C10_theorem (env : Env) (fs : FS) (events : Manifest) (r : Sync.SyncResult)
    (h : Sync.sync_events env fs events = some r)
    (k : String) (ev : Event) (hev : (k, ev) ∈ r.manifest)
    (st0 : FolderState) (hget : fsGet fs ev.folder = some st0)
    (hme : st0.mediaExists = true)
    (fname : String) (hm : fname ∈ st0.mediaFiles)
    (hext : strLower (splitext fname).2 = ".3gp")
    (hnostem : ∀ g ∈ st0.mediaFiles, (splitext g).1 ≠ fname)
    (hdel : env.delOk ev.folder (fname ++ ".webp") = true) :
    Sync.validBases [fname] = [] ∧
    strLower (splitext fname).2 ∈ Utils.VIDEO_EXTS ∧
    strLower (splitext fname).2 ∉ Sync.VIDEO_EXTS ∧
    strLower (splitext fname).2 ∉ Sync.IMAGE_EXTS ∧
    ∃ st1, fsGet r.fs ev.folder = some st1 ∧
      (fname ++ ".webp") ∉ st1.thumbFiles ∧
      App.MediaEntry.mk fname "video.webp" "global_thumb" ∈
        App.get_event_media_list r.fs ev := by
  obtain ⟨hman, hproc⟩ := sync_events_some env fs events r h
  have hnd : ∃ c ∈ fname.data, c ≠ '.' := by
    have hstem : ∃ c ∈ (splitext fname).1.data, c ≠ '.' := by
      apply splitext_nondot_of_ext
      intro he
      rw [he] at hext
      exact absurd hext (by decide)
    obtain ⟨c, hc, hcne⟩ := hstem
    exact ⟨c, splitext_base_sub fname c hc, hcne⟩
  have hsplit : splitext (fname ++ ".webp") = (fname, ".webp") :=
    splitext_append_webp fname hnd
  have hEst : ∀ st : FolderState, st.mediaExists = true →
      st.mediaFiles = st0.mediaFiles →
      (fname ++ ".webp") ∉ (Sync.procFolderState env ev.folder st).1.thumbFiles := by
    intro st _ hmf hcon
    rw [procFolderState_thumbs] at hcon
    have hc := (cleanupPass_mem env ev.folder _ _ _).mp hcon
    apply hc.2
    rw [hsplit]
    refine ⟨strLower_webp, ?_, hdel⟩
    intro hbcon
    rw [hmf] at hbcon
    obtain ⟨g, hg, _, hgeq⟩ := validBases_spec st0.mediaFiles fname hbcon
    exact hnostem g hg hgeq
  obtain ⟨st1, hst1, hme1, hmf1, hP⟩ := processEvents_establishes env ev.folder
    st0.mediaFiles (fun st => (fname ++ ".webp") ∉ st.thumbFiles) hEst
    r.manifest fs [] [] (r.fs, r.gens, r.dels) hproc
    ⟨(k, ev), hev, rfl⟩ st0 hget hme rfl
  refine ⟨?_, ?_, ?_, ?_, st1, hst1, hP, ?_⟩
  · unfold Sync.validBases
    simp only [List.filterMap]
    rw [if_neg (by rw [hext]; decide)]
  · rw [hext]; decide
  · rw [hext]; decide
  · rw [hext]; decide
  · unfold App.get_event_media_list
    rw [hst1]
    dsimp only
    rw [hme1]
    simp only [Bool.true_eq_false, if_false]
    apply List.mem_filterMap.mpr
    refine ⟨fname, ?_, ?_⟩
    · rw [mem_sortStrings, hmf1]
      exact hm
    · dsimp only
      rw [if_pos (by rw [hext]; decide)]
      rw [if_neg (fun hcon => hP hcon.2)]
      rw [if_neg (by rw [hext]; decide)]

/-- Witness for C10 on a folder holding clip.3gp and its upload-named
thumbnail clip.3gp.webp. -/
theorem C10_witness :
    ((Sync.sync_events envAll fs3gp [("ev1", evW)] = some r3gp ∧
      ("ev1", evW) ∈ r3gp.manifest ∧
      fsGet fs3gp "ev1" =
        some { mediaExists := true, mediaFiles := ["clip.3gp"],
               thumbDirExists := true, thumbFiles := ["clip.3gp.webp"] } ∧
      strLower (splitext "clip.3gp").2 = ".3gp" ∧
      (∀ g ∈ ["clip.3gp"], (splitext g).1 ≠ "clip.3gp")) ∧
    (Sync.validBases ["clip.3gp"] = [] ∧
      strLower (splitext "clip.3gp").2 ∈ Utils.VIDEO_EXTS ∧
      strLower (splitext "clip.3gp").2 ∉ Sync.VIDEO_EXTS ∧
      strLower (splitext "clip.3gp").2 ∉ Sync.IMAGE_EXTS ∧
      ∃ st1, fsGet r3gp.fs "ev1" = some st1 ∧
        ("clip.3gp" ++ ".webp") ∉ st1.thumbFiles ∧
        App.MediaEntry.mk "clip.3gp" "video.webp" "global_thumb" ∈
          App.get_event_media_list r3gp.fs evW)) := by
  refine ⟨⟨by decide, by decide, by decide, by decide, by decide⟩, ?_⟩
  exact C10_theorem envAll fs3gp [("ev1", evW)] r3gp (by decide)
    "ev1" evW (by decide)
    { mediaExists := true, mediaFiles := ["clip.3gp"],
      thumbDirExists := true, thumbFiles := ["clip.3gp.webp"] }
    (by decide) (by decide) "clip.3gp" (by decide) (by decide) (by decide) (by decide)

/-- C2 amended.  Idempotence holds provided the discovery step creates no
colliding keys: when the untracked folder names have pairwise distinct
slugs, none of which is an existing manifest key, a second sync pass on
the unchanged filesystem returns the same manifest and the same
filesystem, and every generation or deletion attempt of the second pass
fails (so no new thumbnails are generated and no files are deleted). -/
theorem C2_theorem (env : Env) (fs : FS) (events : Manifest) (r1 : Sync.SyncResult)
    (hN : (fs.dirs.map Prod.fst).Nodup)
    (hSlugNodup : (((fs.dirs.map Prod.fst).filter (fun d =>
      decide (d ≠ "Thumbnail" ∧ d ∉ events.map (fun kv => kv.2.folder)))).map
        slugify0).Nodup)
    (hSlugFresh : ∀ d ∈ (fs.dirs.map Prod.fst).filter (fun d =>
      decide (d ≠ "Thumbnail" ∧ d ∉ events.map (fun kv => kv.2.folder))),
      lookupStr events (slugify0 d) = none)
    (h1 : Sync.sync_events env fs events = some r1) :
    ∃ r2, Sync.sync_events env r1.fs r1.manifest = some r2 ∧
      r2.manifest = r1.manifest ∧ r2.fs = r1.fs ∧
      (∀ g ∈ r2.gens, g.ok = false) ∧ (∀ d ∈ r2.dels, d.ok = false) := by
  obtain ⟨hman, hproc⟩ := sync_events_some env fs events r1 h1
  set dirNames := fs.dirs.map Prod.fst with hdn
  set U := dirNames.filter (fun d =>
    decide (d ≠ "Thumbnail" ∧ d ∉ events.map (fun kv => kv.2.folder))) with hU
  have hfreshAll : ∀ d ∈ dirNames, d ≠ "Thumbnail" →
      d ∉ events.map (fun kv => kv.2.folder) →
      lookupStr events (slugify0 d) = none ∧
      ∀ d2 ∈ dirNames, d2 ≠ d → d2 ≠ "Thumbnail" →
        d2 ∉ events.map (fun kv => kv.2.folder) → slugify0 d2 ≠ slugify0 d := by
    intro d hd hdt hdn2
    have hdU : d ∈ U := List.mem_filter.mpr ⟨hd, by simp [hdt, hdn2]⟩
    refine ⟨hSlugFresh d hdU, ?_⟩
    intro d2 hd2 hne hd2t hd2n heq
    have hd2U : d2 ∈ U := List.mem_filter.mpr ⟨hd2, by simp [hd2t, hd2n]⟩
    exact hne (List.inj_on_of_nodup_map hSlugNodup hd2U hdU heq)
  have hdisc : Sync.discover dirNames events =
      events ++ U.map (fun d => (slugify0 d, Sync.defaultEvent d)) := by
    unfold Sync.discover
    exact discoverAux_fresh dirNames events (events.map (fun kv => kv.2.folder))
      hN hfreshAll
  have hmanifest : r1.manifest =
      events.filter (fun kv => decide (kv.2.folder ∈ dirNames)) ++
        U.map (fun d => (slugify0 d, Sync.defaultEvent d)) := by
    rw [hman, hdisc]
    unfold Sync.prune
    rw [List.filter_append]
    congr 1
    apply List.filter_eq_self.mpr
    intro kv hkv
    obtain ⟨d, hdU, hmk⟩ := List.mem_map.mp hkv
    rw [← hmk]
    have hdd : d ∈ dirNames := (List.mem_filter.mp hdU).1
    simpa [Sync.defaultEvent] using hdd
  have hcover : ∀ d ∈ dirNames, d ≠ "Thumbnail" →
      d ∈ r1.manifest.map (fun kv => kv.2.folder) := by
    intro d hd hdt
    rw [hmanifest, List.map_append]
    by_cases hmem : d ∈ events.map (fun kv => kv.2.folder)
    · apply List.mem_append_left
      obtain ⟨kv, hkv, hf⟩ := List.mem_map.mp hmem
      apply List.mem_map.mpr
      refine ⟨kv, ?_, hf⟩
      apply List.mem_filter.mpr
      refine ⟨hkv, ?_⟩
      rw [hf]
      simpa using hd
    · apply List.mem_append_right
      apply List.mem_map.mpr
      refine ⟨(slugify0 d, Sync.defaultEvent d), ?_, rfl⟩
      apply List.mem_map.mpr
      refine ⟨d, ?_, rfl⟩
      apply List.mem_filter.mpr
      exact ⟨hd, by simp [hdt, hmem]⟩
  have hfolders : ∀ kv ∈ r1.manifest, (kv : String × Event).2.folder ∈ dirNames := by
    intro kv hkv
    rw [hmanifest] at hkv
    rcases List.mem_append.mp hkv with hl | hr
    · have := (List.mem_filter.mp hl).2
      simpa using this
    · obtain ⟨d, hdU, hmk⟩ := List.mem_map.mp hr
      rw [← hmk]
      have hdd : d ∈ dirNames := (List.mem_filter.mp hdU).1
      simpa [Sync.defaultEvent] using hdd
  have hkeys : r1.fs.dirs.map Prod.fst = dirNames :=
    (processEvents_frame env r1.manifest fs [] [] (r1.fs, r1.gens, r1.dels) hproc).2
  have hdisc2 : Sync.discover dirNames r1.manifest = r1.manifest := by
    unfold Sync.discover
    exact discoverAux_noop dirNames r1.manifest _ (fun d hd hdt => hcover d hd hdt)
  have hprune2 : Sync.prune dirNames r1.manifest = r1.manifest := by
    unfold Sync.prune
    apply List.filter_eq_self.mpr
    intro kv hkv
    simpa using hfolders kv hkv
  have hNr : (r1.fs.dirs.map Prod.fst).Nodup := by rw [hkeys]; exact hN
  have hfix : ∀ kv ∈ r1.manifest, ∀ st,
      fsGet r1.fs (kv : String × Event).2.folder = some st →
      st.mediaExists = true → st.thumbDirExists = true ∧
      (Sync.procFolderState env kv.2.folder st).1 = st ∧
      (∀ g ∈ (Sync.procFolderState env kv.2.folder st).2.1, g.ok = false) ∧
      (∀ d ∈ (Sync.procFolderState env kv.2.folder st).2.2, d.ok = false) := by
    intro kv hkv st hst hme
    have hfr := (processEvents_frame env r1.manifest fs [] []
      (r1.fs, r1.gens, r1.dels) hproc).1 kv.2.folder
    rw [hst] at hfr
    cases hget0 : fsGet fs kv.2.folder with
    | none => rw [hget0] at hfr; cases hfr
    | some st0 =>
      rw [hget0] at hfr
      have hfr2 : (st.mediaExists, st.mediaFiles) =
          (st0.mediaExists, st0.mediaFiles) := by simpa using hfr
      have hme0 : st0.mediaExists = true := by
        have hx : st.mediaExists = st0.mediaExists := congrArg Prod.fst hfr2
        rw [← hx, hme]
      have hmf0 : st0.mediaFiles = st.mediaFiles := by
        have hx : st.mediaFiles = st0.mediaFiles := congrArg Prod.snd hfr2
        rw [hx]
      obtain ⟨st2, hst2, _, _, hP⟩ := processEvents_establishes env kv.2.folder
        st.mediaFiles (Sync.folderSynced env kv.2.folder)
        (fun stx _ _ => procFolderState_synced env kv.2.folder stx)
        r1.manifest fs [] [] (r1.fs, r1.gens, r1.dels) hproc
        ⟨kv, hkv, rfl⟩ st0 hget0 hme0 hmf0
      have hse : st2 = st := by
        rw [hst2] at hst
        injection hst with hx
      subst hse
      obtain ⟨hfx1, hfx2, hfx3⟩ := folderSynced_fixpoint env kv.2.folder st2 hP
      exact ⟨hP.1, hfx1, hfx2, hfx3⟩
  obtain ⟨G, D, hrun, hG, hD⟩ := processEvents_fixpoint env r1.manifest r1.fs hNr hfix [] []
  refine ⟨⟨r1.manifest, r1.fs, G, D⟩, ?_, rfl, rfl, ?_, ?_⟩
  · unfold Sync.sync_events
    dsimp only
    rw [hkeys, hdisc2, hprune2, hrun]
  · intro g hg
    rcases hG g hg with hin | hok
    · cases hin
    · exact hok
  · intro d hd
    rcases hD d hd with hin | hok
    · cases hin
    · exact hok

/-- Witness for C2 on a single-folder fixture with no slug collisions. -/
theorem C2_witness :
    ((fsVideoOnly.dirs.map Prod.fst).Nodup ∧
      Sync.sync_events envAll fsVideoOnly [("ev1", evW)] = some rVideoOnly) ∧
    ∃ r2, Sync.sync_events envAll rVideoOnly.fs rVideoOnly.manifest = some r2 ∧
      r2.manifest = rVideoOnly.manifest ∧ r2.fs = rVideoOnly.fs ∧
      (∀ g ∈ r2.gens, g.ok = false) ∧ (∀ d ∈ r2.dels, d.ok = false) := by
  refine ⟨⟨by decide, by decide⟩, ?_⟩
  exact C2_theorem envAll fsVideoOnly [("ev1", evW)] rVideoOnly (by decide) (by decide)
    (by decide) (by decide)
